import Mathlib

/-!
Verification development for the text-to-graph family-tree parser
(`src/family-tree-app/src/parser.ts`).

The parser is shallowly embedded: strings are handled as `List Char`
(`String` in Lean 4.14 is a structure around `List Char`), the JavaScript
regular expressions of the source are translated into explicit, executable
matching functions that mirror the engine's leftmost-match, ordered-alternation
and greedy/backtracking behaviour on the character classes the source uses,
and the mutable single-pass parse state (person map, current focus, current
spouse, ancestry stack, root id) becomes an explicit `ParseState` value
threaded through a fold over the input lines.
-/

namespace FamilyTree

/-! ### Character classes and basic string helpers -/

/-- JavaScript `\s` restricted to the code points that can actually appear in
the parser's inputs (ASCII whitespace); also the class used by `trim`. -/
def isJsSpace (c : Char) : Bool :=
  c = ' ' || c = '\t' || c = '\n' || c = '\r' || c = '\x0b' || c = '\x0c'

/-- JavaScript `.` (without the `s` flag): any character except line
terminators. -/
def isDotChar (c : Char) : Bool :=
  !(c = '\n' || c = '\r')

/-- Lowercasing as performed by JavaScript case-insensitive matching and
`toLowerCase`, on the ASCII and Latin-1 letter ranges the inputs use. -/
def jsLowerChar (c : Char) : Char :=
  if 'A' ≤ c ∧ c ≤ 'Z' then Char.ofNat (c.toNat + 32)
  else if 0xC0 ≤ c.toNat ∧ c.toNat ≤ 0xDE ∧ c.toNat ≠ 0xD7 then Char.ofNat (c.toNat + 32)
  else c

/-- `String.prototype.trim`. -/
def jsTrim (l : List Char) : List Char :=
  ((l.dropWhile isJsSpace).reverse.dropWhile isJsSpace).reverse

/-- Numeric value of a decimal digit character. -/
def digitVal (c : Char) : Nat := c.toNat - 48

/-- Value of a list of decimal digit characters (most significant first). -/
def decValue (ds : List Char) : Nat :=
  ds.foldl (fun a c => 10 * a + digitVal c) 0

/-- The decimal digit character for `d < 10`. -/
def decDigit : Nat → Char
  | 0 => '0' | 1 => '1' | 2 => '2' | 3 => '3' | 4 => '4'
  | 5 => '5' | 6 => '6' | 7 => '7' | 8 => '8' | _ => '9'

/-- Decimal rendering of a natural number, digit list form (fuel-driven so
that it is structurally recursive and kernel-evaluable). -/
def natToDecL : Nat → Nat → List Char
  | 0, _ => []
  | fuel + 1, n =>
    if n < 10 then [decDigit n]
    else natToDecL fuel (n / 10) ++ [decDigit (n % 10)]

/-- Decimal rendering of a natural number, as produced by JavaScript string
interpolation of a (non-negative integral) number. -/
def natToDec (n : Nat) : String := ⟨natToDecL (n + 1) n⟩

/-- Substring test, as JavaScript `String.prototype.includes`. -/
def hasSubstr (pat : List Char) : List Char → Bool
  | [] => pat.isEmpty
  | c :: rest => (List.take pat.length (c :: rest) = pat : Bool) || hasSubstr pat rest

/-- JavaScript `parseInt(s, 10)`: skip leading whitespace, optional sign,
then the maximal run of decimal digits; `NaN` (here `none`) when that run is
empty. -/
def jsParseInt (s : List Char) : Option Int :=
  let t := s.dropWhile isJsSpace
  match t with
  | '-' :: r =>
    let ds := r.takeWhile Char.isDigit
    if ds.isEmpty then none else some (-(decValue ds : Int))
  | '+' :: r =>
    let ds := r.takeWhile Char.isDigit
    if ds.isEmpty then none else some ((decValue ds : Int))
  | r =>
    let ds := r.takeWhile Char.isDigit
    if ds.isEmpty then none else some ((decValue ds : Int))

/-! ### Line normalisation

The source trims each raw line and then strips a `Created: … <four-digit
year>` provenance marker from its front, mirroring
`/^(Created:.*?\d{4})(.*)$/` (a lazy scan for the earliest four-digit run). -/

/-- Scan for the earliest position holding four consecutive decimal digits
such that everything before it is matchable by `.` and everything after it is
matchable by `.`; return the remainder after those digits. -/
def findCreatedSplit : List Char → Option (List Char)
  | a :: b :: c :: d :: r =>
    if a.isDigit && b.isDigit && c.isDigit && d.isDigit && r.all isDotChar then some r
    else if isDotChar a then findCreatedSplit (b :: c :: d :: r)
    else none
  | _ => none

/-- The literal prefix `Created:`. -/
def createdTag : List Char := ("Created:").data

/-- The section-header marker whose presence discards a line. -/
def descendantChartTag : List Char := ("Descendant Chart").data

/-- Normalise one raw line: trim, then strip the `Created:…<year>` prefix when
the provenance regex matches, trimming again. -/
def normalizeLine (raw : List Char) : List Char :=
  let t := jsTrim raw
  if List.take createdTag.length t = createdTag then
    match findCreatedSplit (t.drop createdTag.length) with
    | some r => jsTrim r
    | none => t
  else t

/-! ### Record classifiers

`GENERATION_REGEX = /^\((\d+)\)\s*(\d+[a-z]?)\s+(.+)$/` and
`SPOUSE_REGEX = /^&\s+(.+)$/`; the metadata table is an ordered list of
anchored `tag` + `\s*` + capture patterns. -/

/-- Match `\s+(.+)$` at `r`: at least one whitespace character, then a
non-empty dot-matchable remainder (with the regex backtracking that lets the
final capture be a single whitespace character when the tail is all
whitespace). Returns the capture of `(.+)`. -/
def matchWsPlusRest (r : List Char) : Option (List Char) :=
  let w := r.takeWhile isJsSpace
  let rest := r.dropWhile isJsSpace
  if w.isEmpty then none
  else if rest.isEmpty then
    match w.getLast? with
    | some c => if 2 ≤ w.length ∧ isDotChar c then some [c] else none
    | none => none
  else if rest.all isDotChar then some rest else none

/-- Match `\s*(.+)$` at `r` (used after a metadata tag). -/
def matchWsStarRest (r : List Char) : Option (List Char) :=
  let rest := r.dropWhile isJsSpace
  if rest.isEmpty then
    match r.getLast? with
    | some c => if isDotChar c then some [c] else none
    | none => none
  else if rest.all isDotChar then some rest else none

/-- Match `\s*(.*)$` at `r` (used after the marriage/divorce tags, whose
captures may be empty). -/
def matchWsStarRestOpt (r : List Char) : Option (List Char) :=
  let rest := r.dropWhile isJsSpace
  if rest.isEmpty then some []
  else if rest.all isDotChar then some rest else none

/-- Is `c` a lowercase ASCII letter (the `[a-z]` class)? -/
def isLowerAZ (c : Char) : Bool := 'a' ≤ c && c ≤ 'z'

/-- Match the new-person pattern `^\((\d+)\)\s*(\d+[a-z]?)\s+(.+)$` against a
whole line, returning the generation number, the sibling-index capture and the
free-text remainder. -/
def matchGeneration (l : List Char) : Option (Nat × List Char × List Char) :=
  match l with
  | '(' :: r0 =>
    let gds := r0.takeWhile Char.isDigit
    let r1 := r0.dropWhile Char.isDigit
    if gds.isEmpty then none
    else
      match r1 with
      | ')' :: r2 =>
        let r3 := r2.dropWhile isJsSpace
        let ixd := r3.takeWhile Char.isDigit
        let r4 := r3.dropWhile Char.isDigit
        if ixd.isEmpty then none
        else
          match r4 with
          | c :: r5 =>
            if isLowerAZ c then
              match matchWsPlusRest r5 with
              | some rest => some (decValue gds, ixd ++ [c], rest)
              | none => none
            else
              match matchWsPlusRest r4 with
              | some rest => some (decValue gds, ixd, rest)
              | none => none
          | [] => none
      | _ => none
  | _ => none

/-- Match the spouse pattern `^&\s+(.+)$`. -/
def matchSpouse (l : List Char) : Option (List Char) :=
  match l with
  | '&' :: r => matchWsPlusRest r
  | _ => none

/-- Match an anchored metadata pattern `^<tag>\s*(.+)$`. -/
def matchTagPlus (tag : List Char) (l : List Char) : Option (List Char) :=
  if List.take tag.length l = tag then matchWsStarRest (l.drop tag.length)
  else none

/-- Match an anchored metadata pattern `^<tag>\s*(.*)$`. -/
def matchTagStar (tag : List Char) (l : List Char) : Option (List Char) :=
  if List.take tag.length l = tag then matchWsStarRestOpt (l.drop tag.length)
  else none

def aliTag : List Char := ("ali.").data
def houseTag : List Char := ("TênNhà.").data
def vnTag : List Char := ("TênVN.").data
def memTag : List Char := ("NgàyKỵ.").data
def relTag : List Char := ("PhápNm.").data
def mTag : List Char := ("m.").data
def divTag : List Char := ("div.").data

/-! ### Year-range extraction

`parseYears` searches the free text for
`/\((\d{4}|[<>]?\d{4}|ca\d{4})?\s*-\s*(\d{4}|[<>]?\d{4})?\)/` and parses each
captured token after deleting the characters `<`, `>`, `c`, `a`. -/

/-- Take exactly four decimal digits from the front of a character list. -/
def take4digits : List Char → Option (List Char × List Char)
  | a :: b :: c :: d :: r =>
    if a.isDigit && b.isDigit && c.isDigit && d.isDigit then some ([a, b, c, d], r)
    else none
  | _ => none

/-- Match the second year group followed by the closing parenthesis:
`(\d{4}|[<>]?\d{4})?\)`, with the regex's ordered alternation. Returns the
capture (if the group participated) and the remainder after `)`. -/
def matchYearsG2 (r3 : List Char) : Option (Option (List Char) × List Char) :=
  (match take4digits r3 with
   | some (g2, ')' :: r4) => some (some g2, r4)
   | _ => none)
  <|>
  (match r3 with
   | c :: rest =>
     if c = '<' || c = '>' then
       match take4digits rest with
       | some (g2, ')' :: r4) => some (some (c :: g2), r4)
       | _ => none
     else none
   | [] => none)
  <|>
  (match r3 with
   | ')' :: r4 => some (none, r4)
   | _ => none)

/-- Continuation after the first year group: `\s*-\s*` then the second group
and the closing parenthesis. -/
def matchYearsDash (g1 : Option (List Char)) (r : List Char) :
    Option (Option (List Char) × Option (List Char)) :=
  match r.dropWhile isJsSpace with
  | '-' :: r2 =>
    match matchYearsG2 (r2.dropWhile isJsSpace) with
    | some (g2, _) => some (g1, g2)
    | none => none
  | _ => none

/-- Match the year-range body right after an opening parenthesis: the first
group `(\d{4}|[<>]?\d{4}|ca\d{4})?` (alternatives in the regex's order, with
full backtracking into the continuation), then the dash and second group. -/
def matchYearsAt (r0 : List Char) : Option (Option (List Char) × Option (List Char)) :=
  (match take4digits r0 with
   | some (g1, r) => matchYearsDash (some g1) r
   | none => none)
  <|>
  (match r0 with
   | c :: rest =>
     if c = '<' || c = '>' then
       match take4digits rest with
       | some (g1, r) => matchYearsDash (some (c :: g1)) r
       | none => none
     else none
   | [] => none)
  <|>
  (match r0 with
   | 'c' :: 'a' :: rest =>
     match take4digits rest with
     | some (g1, r) => matchYearsDash (some ('c' :: 'a' :: g1)) r
     | none => none
   | _ => none)
  <|>
  matchYearsDash none r0

/-- Leftmost search for the year-range pattern over the whole text. -/
def searchYears : List Char → Option (Option (List Char) × Option (List Char))
  | [] => none
  | '(' :: r =>
    match matchYearsAt r with
    | some g => some g
    | none => searchYears r
  | _ :: r => searchYears r

/-- `parseSingleYear` of the source: delete `[<>ca]` characters, then
`parseInt` (an absent capture stays absent, as does a `NaN` parse). -/
def parseSingleYear (g : Option (List Char)) : Option Int :=
  g.bind fun s =>
    jsParseInt (s.filter fun c => !(c = '<' || c = '>' || c = 'c' || c = 'a'))

/-- `parseYears`: birth-year and death-year extraction from free text. -/
def parseYears (text : List Char) : Option Int × Option Int :=
  match searchYears text with
  | none => (none, none)
  | some (g1, g2) => (parseSingleYear g1, parseSingleYear g2)

/-! ### Name extraction

`extractName` deletes every parenthesised group (`/\([^)]*\)/g`), then every
localized-name annotation (`/\s*(VN|né|née)\s+[^\s]+/gi`), then trims. -/

/-- Index of the first `)` in a list, if any. -/
def findClose : List Char → Option Nat
  | [] => none
  | c :: r => if c = ')' then some 0 else (findClose r).map (· + 1)

/-- Global removal of `\([^)]*\)`: an opening parenthesis swallows everything
up to the first closing parenthesis after it; an unmatched opening parenthesis
is kept. Fuel-driven (the fuel is the list length, always sufficient). -/
def removeParensAux : Nat → List Char → List Char
  | 0, l => l
  | _ + 1, [] => []
  | fuel + 1, c :: rest =>
    if c = '(' then
      match findClose rest with
      | some i => removeParensAux fuel (rest.drop (i + 1))
      | none => c :: removeParensAux fuel rest
    else c :: removeParensAux fuel rest

def removeParens (l : List Char) : List Char := removeParensAux l.length l

/-- Case-insensitive character comparison for the annotation markers. -/
def lcEq (a b : Char) : Bool := jsLowerChar a = jsLowerChar b

/-- Match `\s+[^\s]+` at `r`, returning the number of characters consumed. -/
def annotCont (r : List Char) : Option Nat :=
  let w := r.takeWhile isJsSpace
  if w.isEmpty then none
  else
    let r2 := r.dropWhile isJsSpace
    let t := r2.takeWhile (fun c => !isJsSpace c)
    if t.isEmpty then none else some (w.length + t.length)

/-- Match `\s*(VN|né|née)\s+[^\s]+` anchored at `l` (alternatives in the
regex's order, case-insensitively), returning the number of characters
consumed. -/
def annotMatchAt (l : List Char) : Option Nat :=
  let w := l.takeWhile isJsSpace
  match l.dropWhile isJsSpace with
  | a :: b :: rest =>
    if lcEq a 'V' && lcEq b 'N' then
      (annotCont rest).map (fun n => w.length + 2 + n)
    else if lcEq a 'n' && lcEq b 'é' then
      match annotCont rest with
      | some n => some (w.length + 2 + n)
      | none =>
        match rest with
        | e :: rest2 =>
          if lcEq e 'e' then (annotCont rest2).map (fun n => w.length + 3 + n)
          else none
        | [] => none
    else none
  | _ => none

/-- Global replacement of the annotation pattern by the empty string:
scan left to right, removing each match and resuming after it. -/
def annotReplaceAux : Nat → List Char → List Char
  | 0, l => l
  | _ + 1, [] => []
  | fuel + 1, c :: rest =>
    match annotMatchAt (c :: rest) with
    | some n => annotReplaceAux fuel (List.drop n (c :: rest))
    | none => c :: annotReplaceAux fuel rest

def annotReplace (l : List Char) : List Char := annotReplaceAux l.length l

/-- `extractName` on character lists. -/
def extractNameL (text : List Char) : List Char :=
  jsTrim (annotReplace (removeParens text))

/-- `extractName` of the source. -/
def extractName (text : String) : String := ⟨extractNameL text.data⟩

/-- The name normalisation used by identity resolution:
`name.toLowerCase().replace(/\s+/g, '')`. -/
def normName (s : String) : List Char :=
  (s.data.map jsLowerChar).filter (fun c => !isJsSpace c)

/-! ### Data model (`types.ts` as used by the parser) -/

/-- A marriage/partnership record owned by one `Person`. -/
structure Spouse where
  name : String
  nameVN : Option String := none
  marriageDate : Option String := none
  divorceDate : Option String := none
  childrenIds : List String := []
deriving Repr, DecidableEq

/-- An individual of the family tree. -/
structure Person where
  id : String
  generation : Nat
  childIndex : String
  name : String
  nameVN : Option String := none
  «alias» : Option (List String) := none
  houseName : Option String := none
  birthYear : Option Int := none
  deathYear : Option Int := none
  memorialDate : Option String := none
  religiousName : Option String := none
  spouses : List Spouse := []
  parentId : Option String := none
deriving Repr, DecidableEq

/-- The parse result: the person map (insertion-ordered, unique keys) and the
root identity (the empty string meaning "not set", as in the source). -/
structure FamilyData where
  allPersons : List (String × Person)
  rootId : String
deriving Repr, DecidableEq

/-! ### The person map (insertion-ordered, `Map`-like) -/

/-- `Map.get`. -/
def lookupPerson : List (String × Person) → String → Option Person
  | [], _ => none
  | (k, p) :: r, k' => if k = k' then some p else lookupPerson r k'

/-- `Map.set`: replace in place when the key exists, append otherwise. -/
def setPerson : List (String × Person) → String → Person → List (String × Person)
  | [], k, p => [(k, p)]
  | (k', q) :: r, k, p =>
    if k' = k then (k, p) :: r else (k', q) :: setPerson r k p

/-- Update the person stored at a key in place (no-op for an absent key). -/
def updatePerson : List (String × Person) → String → (Person → Person) →
    List (String × Person)
  | [], _, _ => []
  | (k', q) :: r, k, f =>
    if k' = k then (k', f q) :: r else (k', q) :: updatePerson r k f

/-- Replace the element at an index of a list in place. -/
def modifyAt (f : α → α) : Nat → List α → List α
  | _, [] => []
  | 0, a :: r => f a :: r
  | n + 1, a :: r => a :: modifyAt f n r

/-- Replace the last element of a list in place. -/
def modifyLast (f : α → α) : List α → List α
  | [] => []
  | [a] => [f a]
  | a :: b :: r => a :: modifyLast f (b :: r)

/-! ### Parse state and the per-line transition -/

/-- The mutable single-pass state of `parseFamilyTree`: the accumulating
person map, the current focus person (by identity), the most recently created
spouse (by owner identity and index into the owner's spouse list — faithful to
the source, where `currentSpouse` aliases an entry of the owner's array), the
ancestry stack (head = top), and the root identity (empty = unset). -/
structure ParseState where
  personMap : List (String × Person)
  currentPersonId : Option String
  currentSpouseRef : Option (String × Nat)
  parentStack : List (Nat × String)
  rootId : String
deriving Repr, DecidableEq

def initState : ParseState :=
  { personMap := [], currentPersonId := none, currentSpouseRef := none,
    parentStack := [], rootId := "" }

/-- Pop the ancestry stack while its top generation is ≥ the new record's. -/
def popStack : List (Nat × String) → Nat → List (Nat × String)
  | [], _ => []
  | (g', i) :: r, g => if g ≤ g' then popStack r g else (g', i) :: r

/-- Strip one trailing lowercase letter from the sibling index
(`childIndex.replace(/[a-z]$/, '')`). -/
def stripTrailingLower (l : List Char) : List Char :=
  match l.getLast? with
  | some c => if isLowerAZ c then l.dropLast else l
  | none => l

/-- The candidate identity probed at a given suffix number:
the canonical identity itself for suffix 1, `canonical_<suffix>` after. -/
def candId (canonical : String) (suffix : Nat) : String :=
  if suffix = 1 then canonical else canonical ++ "_" ++ natToDec suffix

/-- The collision-probing loop of identity resolution (fuel-driven; the
parser runs it with fuel `personMap.length + 1`, which always suffices — see
the termination theorem). Returns the resolved identity and whether an
existing person was found. -/
def probeAux (m : List (String × Person)) (canonical name : String) :
    Nat → Nat → Option (String × Bool)
  | 0, _ => none
  | fuel + 1, suffix =>
    let checkId := candId canonical suffix
    match lookupPerson m checkId with
    | some existing =>
      if normName existing.name = normName name then some (checkId, true)
      else probeAux m canonical name fuel (suffix + 1)
    | none => some (checkId, false)

/-- The canonical identity of a new-person record in a given state: nearest
still-open strictly-shallower ancestor (or the `root` marker) combined with
the generation and the letter-stripped base sibling index. -/
def canonicalId (st : ParseState) (g : Nat) (idx : List Char) : String :=
  match (popStack st.parentStack g).head? with
  | some pr => pr.2 ++ "_g" ++ natToDec g ++ "-" ++ ⟨stripTrailingLower idx⟩
  | none => "root_g" ++ natToDec g ++ "-" ++ ⟨stripTrailingLower idx⟩

/-- Attach a freshly created child to the most recently added spouse of its
parent, avoiding duplicates; no-op when the parent has no recorded spouse. -/
def attachChild (m : List (String × Person)) (parentId finalId : String) :
    List (String × Person) :=
  match lookupPerson m parentId with
  | some parent =>
    if parent.spouses.isEmpty then m
    else
      updatePerson m parentId fun p =>
        { p with
          spouses := modifyLast
            (fun sp =>
              if finalId ∈ sp.childrenIds then sp
              else { sp with childrenIds := sp.childrenIds ++ [finalId] })
            p.spouses }
  | none => m

/-- The person constructed for a brand-new identity (the record built in the
`!foundExisting` branch). -/
def newPersonOf (fid : String) (g : Nat) (idx rest : List Char)
    (parentId? : Option String) : Person :=
  { id := fid, generation := g, childIndex := ⟨idx⟩, name := ⟨extractNameL rest⟩,
    birthYear := (parseYears rest).1, deathYear := (parseYears rest).2,
    spouses := [], parentId := parentId? }

/-- Process one new-person record (the body of the `personMatch` branch). -/
def processPersonRecord (st : ParseState) (g : Nat) (idx rest : List Char) :
    ParseState :=
  let stack1 := popStack st.parentStack g
  let parentId? := stack1.head?.map (·.2)
  let canonical := canonicalId st g idx
  let years := parseYears rest
  let name : String := ⟨extractNameL rest⟩
  match probeAux st.personMap canonical name (st.personMap.length + 1) 1 with
  | some (finalId, true) =>
    { st with
      currentPersonId := some finalId,
      currentSpouseRef := none,
      parentStack := (g, finalId) :: stack1 }
  | some (finalId, false) =>
    let newPerson : Person :=
      { id := finalId, generation := g, childIndex := ⟨idx⟩, name := name,
        birthYear := years.1, deathYear := years.2, spouses := [],
        parentId := parentId? }
    let m1 := setPerson st.personMap finalId newPerson
    let root' := if g = 1 ∧ st.rootId = "" then finalId else st.rootId
    let m2 :=
      match parentId? with
      | some pid => attachChild m1 pid finalId
      | none => m1
    { personMap := m2, currentPersonId := some finalId,
      currentSpouseRef := none, parentStack := (g, finalId) :: stack1,
      rootId := root' }
  | none => st

/-- Process one spouse record (the body of the `spouseMatch` branch, which
requires a current focus person). -/
def processSpouseLine (st : ParseState) (rest : List Char) : ParseState :=
  match st.currentPersonId with
  | none => st
  | some fid =>
    let sp : Spouse := { name := ⟨extractNameL rest⟩, childrenIds := [] }
    let idx := ((lookupPerson st.personMap fid).map (·.spouses.length)).getD 0
    { st with
      personMap := updatePerson st.personMap fid
        (fun p => { p with spouses := p.spouses ++ [sp] }),
      currentSpouseRef := some (fid, idx) }

/-- Update the spouse a `(owner, index)` reference points at. -/
def updateSpouseAt (m : List (String × Person)) (ref : String × Nat)
    (f : Spouse → Spouse) : List (String × Person) :=
  updatePerson m ref.1 fun p => { p with spouses := modifyAt f ref.2 p.spouses }

/-- The trimmed metadata value (`match[1]?.trim() || ''`). -/
def metaValue (v : List Char) : String := ⟨jsTrim v⟩

/-- Process the metadata block: ordered dispatch over the metadata patterns,
first match wins; every branch is a no-op without a current focus person. -/
def applyMeta (st : ParseState) (l : List Char) : ParseState :=
  match st.currentPersonId with
  | none => st
  | some fid =>
    match matchTagPlus aliTag l with
    | some v =>
      let f := fun p => { p with «alias» := some (p.«alias».getD [] ++ [metaValue v]) }
      { st with personMap := updatePerson st.personMap fid f }
    | none =>
    match matchTagPlus houseTag l with
    | some v =>
      let f := fun p => { p with houseName := some (metaValue v) }
      { st with personMap := updatePerson st.personMap fid f }
    | none =>
    match matchTagPlus vnTag l with
    | some v =>
      match st.currentSpouseRef with
      | some ref =>
        let f := fun sp => { sp with nameVN := some (metaValue v) }
        { st with personMap := updateSpouseAt st.personMap ref f }
      | none =>
        let f := fun p => { p with nameVN := some (metaValue v) }
        { st with personMap := updatePerson st.personMap fid f }
    | none =>
    match matchTagPlus memTag l with
    | some v =>
      let f := fun p => { p with memorialDate := some (metaValue v) }
      { st with personMap := updatePerson st.personMap fid f }
    | none =>
    match matchTagPlus relTag l with
    | some v =>
      let f := fun p => { p with religiousName := some (metaValue v) }
      { st with personMap := updatePerson st.personMap fid f }
    | none =>
    match matchTagStar mTag l with
    | some v =>
      match st.currentSpouseRef with
      | some ref =>
        let f := fun sp => { sp with marriageDate := some (metaValue v) }
        { st with personMap := updateSpouseAt st.personMap ref f }
      | none => st
    | none =>
    match matchTagStar divTag l with
    | some v =>
      match st.currentSpouseRef with
      | some ref =>
        let f := fun sp => { sp with divorceDate := some (metaValue v) }
        { st with personMap := updateSpouseAt st.personMap ref f }
      | none => st
    | none => st

/-- Process one raw line of input. -/
def processLine (st : ParseState) (raw : List Char) : ParseState :=
  let cl := normalizeLine raw
  if cl.isEmpty || hasSubstr descendantChartTag cl then st
  else
    match matchGeneration cl with
    | some (g, idx, rest) => processPersonRecord st g idx rest
    | none =>
      match matchSpouse cl, st.currentPersonId with
      | some rest, some _ => processSpouseLine st rest
      | _, _ => applyMeta st cl

/-- Split the input on `\r?\n`. -/
def splitLinesAux : List Char → List Char → List (List Char)
  | [], acc => [acc.reverse]
  | '\r' :: '\n' :: rest, acc => acc.reverse :: splitLinesAux rest []
  | '\n' :: rest, acc => acc.reverse :: splitLinesAux rest []
  | c :: rest, acc => splitLinesAux rest (c :: acc)

def splitLines (l : List Char) : List (List Char) := splitLinesAux l []

/-- `parseFamilyTree` of the source. -/
def parseFamilyTree (text : String) : FamilyData :=
  let final := (splitLines text.data).foldl processLine initState
  { allPersons := final.personMap, rootId := final.rootId }

/-! ### Further definitions used by the claim statements -/

/-- `String.prototype.trim` on strings. -/
def jsTrimStr (s : String) : String := ⟨jsTrim s.data⟩

/-- No position of the text matches the localized-name annotation pattern
(the condition under which the annotation-removing replace is the
identity). -/
def annotFree : List Char → Bool
  | [] => true
  | c :: r => (annotMatchAt (c :: r)).isNone && annotFree r

/-- Number of occupied candidate identities among the `k` candidates with
suffixes `s₀, s₀+1, …, s₀+k-1` — the collisions already resolved into the
canonical slot. -/
def occupiedFrom (m : List (String × Person)) (canonical : String) : Nat → Nat → Nat
  | _, 0 => 0
  | s₀, k + 1 =>
    (if (lookupPerson m (candId canonical s₀)).isSome then 1 else 0) +
      occupiedFrom m canonical (s₀ + 1) k

/-- Try to read a generation marker `_g<digits>-` anchored at a position. -/
def genMarkAt : List Char → Option Nat
  | '_' :: 'g' :: r =>
    let ds := r.takeWhile Char.isDigit
    if ds.isEmpty then none
    else
      match r.dropWhile Char.isDigit with
      | '-' :: _ => some (decValue ds)
      | _ => none
  | _ => none

/-- The generation encoded in an identity string: the value of the digit run
of the last `_g<digits>-` marker. Every identity the parser mints carries
exactly the generation of the record that created it in this position. -/
def genOfKeyL : List Char → Option Nat
  | [] => none
  | c :: r =>
    match genOfKeyL r with
    | some g => some g
    | none => genMarkAt (c :: r)

/-- The structural invariant of the person map: identities encode the
generation of their person, spouse children lists are duplicate-free and
point back at existing children of the owning person, and parent references
point at existing persons of strictly smaller generation. -/
def PMapInv (m : List (String × Person)) : Prop :=
  (∀ k p, lookupPerson m k = some p → genOfKeyL k.data = some p.generation) ∧
  (∀ k p, lookupPerson m k = some p → ∀ sp ∈ p.spouses,
    sp.childrenIds.Nodup ∧
    ∀ cid ∈ sp.childrenIds, (lookupPerson m cid).map Person.parentId = some (some k)) ∧
  (∀ k p pid, lookupPerson m k = some p → p.parentId = some pid →
    ∃ q, lookupPerson m pid = some q ∧ q.generation < p.generation)

/-- The full parse-state invariant: the map invariant plus the guarantee that
every ancestry-stack entry names an existing person of that generation. -/
def StateInv (st : ParseState) : Prop :=
  PMapInv st.personMap ∧
  ∀ g i, (g, i) ∈ st.parentStack →
    ∃ q, lookupPerson st.personMap i = some q ∧ q.generation = g

/-- The parent step relation of a parse result: `a` has `b` recorded as its
parent. -/
def ParentRel (fd : FamilyData) (a b : String) : Prop :=
  ∃ p, lookupPerson fd.allPersons a = some p ∧ p.parentId = some b

/-- Does a raw line survive normalisation and classify as a generation-1
new-person record? -/
def isGen1Record (raw : List Char) : Bool :=
  let cl := normalizeLine raw
  if cl.isEmpty || hasSubstr descendantChartTag cl then false
  else
    match matchGeneration cl with
    | some (g, _, _) => g = 1
    | none => false

/-- Every person of the second map was already present in the first with the
same generation (the map evolved only by generation-preserving edits). -/
def GenPres (m m' : List (String × Person)) : Prop :=
  ∀ k p, lookupPerson m' k = some p →
    ∃ q, lookupPerson m k = some q ∧ p.generation = q.generation

/-- The person map holds no generation-1 person yet. -/
def NoGen1 (m : List (String × Person)) : Prop :=
  ∀ k p, lookupPerson m k = some p → ¬(p.generation = 1)

/-! ### Lemmas about the person map -/

theorem lookupPerson_setPerson (m : List (String × Person)) (k k' : String) (p : Person) :
    lookupPerson (setPerson m k p) k' = if k = k' then some p else lookupPerson m k' := by
  induction m with
  | nil => simp [setPerson, lookupPerson]
  | cons kv r ih =>
    obtain ⟨k0, q⟩ := kv
    simp only [setPerson]
    by_cases h0 : k0 = k
    · subst h0
      by_cases h1 : k0 = k' <;> simp [lookupPerson, h1]
    · rw [if_neg h0]
      by_cases h1 : k0 = k'
      · have hk : ¬(k = k') := fun h => h0 (h1.trans h.symm)
        simp [lookupPerson, h1, hk]
      · simp [lookupPerson, h1, ih]

theorem lookupPerson_updatePerson (m : List (String × Person)) (k k' : String)
    (f : Person → Person) :
    lookupPerson (updatePerson m k f) k' =
      if k = k' then (lookupPerson m k).map f else lookupPerson m k' := by
  induction m with
  | nil => simp [updatePerson, lookupPerson]
  | cons kv r ih =>
    obtain ⟨k0, q⟩ := kv
    simp only [updatePerson]
    by_cases h0 : k0 = k
    · subst h0
      by_cases h1 : k0 = k' <;> simp [lookupPerson, h1]
    · rw [if_neg h0]
      by_cases h1 : k0 = k'
      · have hk : ¬(k = k') := fun h => h0 (h1.trans h.symm)
        simp [lookupPerson, h1, hk]
      · by_cases h2 : k = k'
        · subst h2
          simp [lookupPerson, h1, ih]
        · simp [lookupPerson, h1, h2, ih]

theorem lookupPerson_append (m m' : List (String × Person)) (k : String) :
    lookupPerson (m ++ m') k =
      match lookupPerson m k with
      | some p => some p
      | none => lookupPerson m' k := by
  induction m with
  | nil => simp [lookupPerson]
  | cons kv r ih =>
    obtain ⟨k0, q⟩ := kv
    by_cases h0 : k0 = k <;> simp [lookupPerson, h0, ih]

theorem setPerson_of_lookup_none (m : List (String × Person)) (k : String) (p : Person)
    (h : lookupPerson m k = none) : setPerson m k p = m ++ [(k, p)] := by
  induction m with
  | nil => simp [setPerson]
  | cons kv r ih =>
    obtain ⟨k0, q⟩ := kv
    simp only [lookupPerson] at h
    by_cases h0 : k0 = k
    · simp [h0] at h
    · simp only [h0, if_false] at h
      simp [setPerson, h0, ih h]

theorem lookupPerson_isSome_mem_keys (m : List (String × Person)) (k : String)
    (h : (lookupPerson m k).isSome = true) : k ∈ m.map Prod.fst := by
  induction m with
  | nil => simp [lookupPerson] at h
  | cons kv r ih =>
    obtain ⟨k0, q⟩ := kv
    by_cases h0 : k0 = k
    · simp [h0]
    · simp only [lookupPerson, h0, if_false] at h
      simp [ih h]

/-! ### Lemmas about decimal rendering -/

theorem digitVal_decDigit (d : Nat) (h : d < 10) : digitVal (decDigit d) = d := by
  interval_cases d <;> rfl

theorem isDigit_decDigit (d : Nat) (h : d < 10) : (decDigit d).isDigit = true := by
  interval_cases d <;> rfl

theorem decValue_append (xs : List Char) (c : Char) :
    decValue (xs ++ [c]) = 10 * decValue xs + digitVal c := by
  simp [decValue, List.foldl_append]

theorem decValue_natToDecL : ∀ fuel n, n < 10 ^ fuel → decValue (natToDecL fuel n) = n := by
  intro fuel
  induction fuel with
  | zero =>
    intro n h
    interval_cases n
    rfl
  | succ fuel ih =>
    intro n h
    by_cases h10 : n < 10
    · simp [natToDecL, h10, decValue, digitVal_decDigit n h10]
    · have hd : n / 10 < 10 ^ fuel := by
        rw [Nat.div_lt_iff_lt_mul (by norm_num : (0:Nat) < 10)]
        calc n < 10 ^ (fuel + 1) := h
        _ = 10 ^ fuel * 10 := by ring
      have hm : n % 10 < 10 := Nat.mod_lt _ (by norm_num)
      simp only [natToDecL, h10, if_false, decValue_append, ih (n / 10) hd,
        digitVal_decDigit _ hm]
      omega

theorem decValue_natToDec (n : Nat) : decValue (natToDec n).data = n := by
  have h1 : n < 10 ^ n := Nat.lt_pow_self (by norm_num) n
  have h2 : (10:Nat) ^ n ≤ 10 ^ (n + 1) :=
    Nat.pow_le_pow_right (by norm_num) (Nat.le_succ n)
  exact decValue_natToDecL (n + 1) n (lt_of_lt_of_le h1 h2)

theorem natToDec_inj {a b : Nat} (h : natToDec a = natToDec b) : a = b := by
  have := congrArg (fun s : String => decValue s.data) h
  simpa [decValue_natToDec] using this

theorem mem_natToDecL_isDigit : ∀ fuel n c, c ∈ natToDecL fuel n → c.isDigit = true := by
  intro fuel
  induction fuel with
  | zero => intro n c hc; simp [natToDecL] at hc
  | succ fuel ih =>
    intro n c hc
    by_cases h10 : n < 10
    · simp only [natToDecL, h10, if_true, List.mem_singleton] at hc
      exact hc ▸ isDigit_decDigit n h10
    · simp only [natToDecL, h10, if_false, List.mem_append, List.mem_singleton] at hc
      rcases hc with hc | hc
      · exact ih (n / 10) c hc
      · exact hc ▸ isDigit_decDigit _ (Nat.mod_lt _ (by norm_num))

theorem natToDecL_ne_nil (fuel n : Nat) (h : fuel ≠ 0) : natToDecL fuel n ≠ [] := by
  match fuel, h with
  | fuel + 1, _ =>
    by_cases h10 : n < 10 <;> simp [natToDecL, h10]

theorem strData_append (a b : String) : (a ++ b).data = a.data ++ b.data := rfl

/-! ### The probing loop: characterisation and termination (claim C8) -/

theorem candId_inj (c : String) {i j : Nat} (hi : 1 ≤ i) (hj : 1 ≤ j)
    (h : candId c i = candId c j) : i = j := by
  unfold candId at h
  by_cases hi1 : i = 1 <;> by_cases hj1 : j = 1
  · exact hi1.trans hj1.symm
  · exfalso
    rw [if_pos hi1, if_neg hj1] at h
    have := congrArg (fun s : String => s.data.length) h
    simp only [strData_append, List.length_append] at this
    have hne := natToDecL_ne_nil (j + 1) j (Nat.succ_ne_zero j)
    have : (natToDec j).data.length ≠ 0 := by
      simpa [natToDec, List.length_eq_zero] using hne
    omega
  · exfalso
    rw [if_neg hi1, if_pos hj1] at h
    have := congrArg (fun s : String => s.data.length) h
    simp only [strData_append, List.length_append] at this
    have hne := natToDecL_ne_nil (i + 1) i (Nat.succ_ne_zero i)
    have : (natToDec i).data.length ≠ 0 := by
      simpa [natToDec, List.length_eq_zero] using hne
    omega
  · rw [if_neg hi1, if_neg hj1] at h
    have hdata := congrArg String.data h
    simp only [strData_append] at hdata
    have := List.append_cancel_left hdata
    exact natToDec_inj (by apply String.ext; exact this)

theorem occupiedFrom_le (m : List (String × Person)) (c : String) :
    ∀ k s₀, occupiedFrom m c s₀ k ≤ k := by
  intro k
  induction k with
  | zero => intro s₀; simp [occupiedFrom]
  | succ k ih =>
    intro s₀
    have := ih (s₀ + 1)
    by_cases h : (lookupPerson m (candId c s₀)).isSome <;>
      simp [occupiedFrom, h] <;> omega

theorem occupiedFrom_add (m : List (String × Person)) (c : String) :
    ∀ k j s₀, occupiedFrom m c s₀ (k + j) =
      occupiedFrom m c s₀ k + occupiedFrom m c (s₀ + k) j := by
  intro k
  induction k with
  | zero => intro j s₀; simp [occupiedFrom]
  | succ k ih =>
    intro j s₀
    have hrw : k + 1 + j = (k + j) + 1 := by omega
    rw [hrw]
    show (if (lookupPerson m (candId c s₀)).isSome then 1 else 0) +
        occupiedFrom m c (s₀ + 1) (k + j) = _
    rw [ih j (s₀ + 1)]
    have : s₀ + 1 + k = s₀ + (k + 1) := by omega
    rw [this]
    show _ = (if (lookupPerson m (candId c s₀)).isSome then 1 else 0) +
        occupiedFrom m c (s₀ + 1) k + occupiedFrom m c (s₀ + (k + 1)) j
    omega

theorem occupiedFrom_mono (m : List (String × Person)) (c : String) (s₀ : Nat)
    {k k' : Nat} (h : k ≤ k') :
    occupiedFrom m c s₀ k ≤ occupiedFrom m c s₀ k' := by
  obtain ⟨j, rfl⟩ := Nat.le.dest h
  rw [occupiedFrom_add]
  omega

theorem occupiedFrom_eq_all (m : List (String × Person)) (c : String) :
    ∀ k s₀, occupiedFrom m c s₀ k = k →
      ∀ i, i < k → (lookupPerson m (candId c (s₀ + i))).isSome = true := by
  intro k
  induction k with
  | zero => intro s₀ _ i hi; omega
  | succ k ih =>
    intro s₀ h i hi
    have hle := occupiedFrom_le m c k (s₀ + 1)
    by_cases hocc : (lookupPerson m (candId c s₀)).isSome
    · simp only [occupiedFrom, hocc, if_true] at h
      rcases Nat.eq_zero_or_pos i with hz | hp
      · subst hz; simpa using hocc
      · have : s₀ + i = (s₀ + 1) + (i - 1) := by omega
        rw [this]
        exact ih (s₀ + 1) (by omega) (i - 1) (by omega)
    · simp [occupiedFrom, hocc] at h
      omega

theorem probeAux_of_occupied_lt (m : List (String × Person)) (c nm : String) :
    ∀ fuel s₀, occupiedFrom m c s₀ fuel < fuel →
      ∃ r, probeAux m c nm fuel s₀ = some r := by
  intro fuel
  induction fuel with
  | zero => intro s₀ h; omega
  | succ fuel ih =>
    intro s₀ h
    show ∃ r,
      (match lookupPerson m (candId c s₀) with
       | some existing =>
         if normName existing.name = normName nm then some (candId c s₀, true)
         else probeAux m c nm fuel (s₀ + 1)
       | none => some (candId c s₀, false)) = some r
    cases hl : lookupPerson m (candId c s₀) with
    | none => exact ⟨(candId c s₀, false), rfl⟩
    | some existing =>
      by_cases hn : normName existing.name = normName nm
      · exact ⟨(candId c s₀, true), by simp [hn]⟩
      · simp only [hn, if_false]
        apply ih (s₀ + 1)
        simp only [occupiedFrom, hl, Option.isSome_some, if_true] at h
        omega

theorem occupiedFrom_le_length (m : List (String × Person)) (c : String) :
    occupiedFrom m c 1 (m.length + 1) ≤ m.length := by
  by_contra hcon
  have hle := occupiedFrom_le m c (m.length + 1) 1
  have heq : occupiedFrom m c 1 (m.length + 1) = m.length + 1 := by omega
  have hall := occupiedFrom_eq_all m c (m.length + 1) 1 heq
  -- all `m.length + 1` pairwise-distinct candidates would be keys of a map
  -- with only `m.length` entries
  set cands := (List.range (m.length + 1)).map (fun i => candId c (1 + i)) with hcands
  have hnodup : cands.Nodup := by
    rw [hcands]
    apply List.Nodup.map_on
    · intro i hi j hj hij
      have := candId_inj c (by omega : 1 ≤ 1 + i) (by omega : 1 ≤ 1 + j) hij
      omega
    · exact List.nodup_range _
  have hsub : cands ⊆ m.map Prod.fst := by
    intro k hk
    rw [hcands] at hk
    simp only [List.mem_map, List.mem_range] at hk
    obtain ⟨i, hi, rfl⟩ := hk
    exact lookupPerson_isSome_mem_keys m _ (hall i hi)
  have hlen : cands.length ≤ (m.map Prod.fst).length :=
    (List.subperm_of_subset hnodup hsub).length_le
  have hlen2 : m.length + 1 ≤ m.length := by simpa [hcands] using hlen
  omega

/-- Claim C8: the identity-probing loop always terminates — an unoccupied (or
same-name) candidate is reached within one more probe than the number of
collisions already resolved into the canonical slot, and in particular the
probe the parser actually runs (with fuel `personMap.length + 1`) always
returns a result, making identity resolution a total function of the parse
state and the record. -/
theorem probeAux_succ_mono (m : List (String × Person)) (c nm : String) :
    ∀ fuel fuel' s₀ r, fuel ≤ fuel' → probeAux m c nm fuel s₀ = some r →
      probeAux m c nm fuel' s₀ = some r := by
  intro fuel
  induction fuel with
  | zero => intro fuel' s₀ r _ h; simp [probeAux] at h
  | succ fuel ih =>
    intro fuel' s₀ r hle h
    match fuel', hle with
    | fuel'' + 1, hle =>
      revert h
      show (match lookupPerson m (candId c s₀) with
            | some existing =>
              if normName existing.name = normName nm then some (candId c s₀, true)
              else probeAux m c nm fuel (s₀ + 1)
            | none => some (candId c s₀, false)) = some r →
           (match lookupPerson m (candId c s₀) with
            | some existing =>
              if normName existing.name = normName nm then some (candId c s₀, true)
              else probeAux m c nm fuel'' (s₀ + 1)
            | none => some (candId c s₀, false)) = some r
      cases hl : lookupPerson m (candId c s₀) with
      | none => exact id
      | some existing =>
        by_cases hn : normName existing.name = normName nm
        · simp [hn]
        · simp only [hn, if_false]
          exact ih fuel'' (s₀ + 1) r (by omega)

/-- One-step unfolding of the probing loop. -/
theorem probeAux_unfold (m : List (String × Person)) (c nm : String) (fuel s₀ : Nat) :
    probeAux m c nm (fuel + 1) s₀ =
      match lookupPerson m (candId c s₀) with
      | some existing =>
        if normName existing.name = normName nm then some (candId c s₀, true)
        else probeAux m c nm fuel (s₀ + 1)
      | none => some (candId c s₀, false) := rfl

/-- One-step unfolding at an occupied candidate. -/
theorem probeAux_step_occupied (m : List (String × Person)) (c nm : String)
    (fuel s₀ : Nat) (q : Person) (hq : lookupPerson m (candId c s₀) = some q) :
    probeAux m c nm (fuel + 1) s₀ =
      if normName q.name = normName nm then some (candId c s₀, true)
      else probeAux m c nm fuel (s₀ + 1) := by
  rw [probeAux_unfold, hq]

/-- One-step unfolding at a free candidate. -/
theorem probeAux_step_free (m : List (String × Person)) (c nm : String)
    (fuel s₀ : Nat) (hq : lookupPerson m (candId c s₀) = none) :
    probeAux m c nm (fuel + 1) s₀ = some (candId c s₀, false) := by
  rw [probeAux_unfold, hq]

/-- A probe that reports an existing person really did find one, at a
candidate identity of the slot, with a matching normalised name. -/
theorem probeAux_found (m : List (String × Person)) (c nm : String) :
    ∀ fuel s₀ fid, probeAux m c nm fuel s₀ = some (fid, true) →
      ∃ s' q, s₀ ≤ s' ∧ fid = candId c s' ∧ lookupPerson m fid = some q ∧
        normName q.name = normName nm := by
  intro fuel
  induction fuel with
  | zero => intro s₀ fid h; simp [probeAux] at h
  | succ fuel ih =>
    intro s₀ fid h
    rw [probeAux_unfold] at h
    split at h
    next existing hl =>
      by_cases hn : normName existing.name = normName nm
      · rw [if_pos hn] at h
        simp only [Option.some.injEq, Prod.mk.injEq, and_true] at h
        exact ⟨s₀, existing, le_refl _, h.symm, h ▸ hl, hn⟩
      · rw [if_neg hn] at h
        obtain ⟨s', q, hs, h2, h3, h4⟩ := ih (s₀ + 1) fid h
        exact ⟨s', q, by omega, h2, h3, h4⟩
    next hl => simp at h

/-- A probe that reports a brand-new person found its identity unoccupied. -/
theorem probeAux_fresh (m : List (String × Person)) (c nm : String) :
    ∀ fuel s₀ fid, probeAux m c nm fuel s₀ = some (fid, false) →
      ∃ s', s₀ ≤ s' ∧ fid = candId c s' ∧ lookupPerson m fid = none := by
  intro fuel
  induction fuel with
  | zero => intro s₀ fid h; simp [probeAux] at h
  | succ fuel ih =>
    intro s₀ fid h
    rw [probeAux_unfold] at h
    split at h
    next existing hl =>
      by_cases hn : normName existing.name = normName nm
      · rw [if_pos hn] at h; simp at h
      · rw [if_neg hn] at h
        obtain ⟨s', hs, h2, h3⟩ := ih (s₀ + 1) fid h
        exact ⟨s', by omega, h2, h3⟩
    next hl =>
      simp only [Option.some.injEq, Prod.mk.injEq, and_true] at h
      exact ⟨s₀, le_refl _, h.symm, h ▸ hl⟩

/-- C8: for every person map and every new-person record's canonical slot and
name, the identity-probing loop terminates: it already returns a result with
fuel one more than the number of collisions previously resolved into that
canonical slot, and the probe the parser actually runs (fuel
`personMap.length + 1`) returns that same result — so identity resolution is
a total function of the parse state and the record. -/
theorem probe_resolution_total (m : List (String × Person)) (canonical name : String) :
    ∃ r, probeAux m canonical name (occupiedFrom m canonical 1 (m.length + 1) + 1) 1 = some r ∧
      probeAux m canonical name (m.length + 1) 1 = some r := by
  set occ := occupiedFrom m canonical 1 (m.length + 1) with hocc
  have hoccle : occ ≤ m.length := occupiedFrom_le_length m canonical
  have hmono := occupiedFrom_mono m canonical 1 (show occ + 1 ≤ m.length + 1 by omega)
  have hlt : occupiedFrom m canonical 1 (occ + 1) < occ + 1 := by omega
  obtain ⟨r, hr⟩ := probeAux_of_occupied_lt m canonical name (occ + 1) 1 hlt
  exact ⟨r, hr,
    probeAux_succ_mono m canonical name (occ + 1) (m.length + 1) 1 r (by omega) hr⟩

/-! ### Year extraction (claim C3) -/

theorem decDigit_not_space (d : Nat) (h : d < 10) : isJsSpace (decDigit d) = false := by
  interval_cases d <;> rfl

theorem decDigit_kept (d : Nat) (h : d < 10) :
    (!(decDigit d = '<' || decDigit d = '>' || decDigit d = 'c' || decDigit d = 'a')) = true := by
  interval_cases d <;> rfl

theorem decDigit_ne_dash (d : Nat) (h : d < 10) : ¬(decDigit d = '-') := by
  interval_cases d <;> decide

theorem decDigit_ne_plus (d : Nat) (h : d < 10) : ¬(decDigit d = '+') := by
  interval_cases d <;> decide

/-- `jsParseInt` on a non-empty all-digit list headed by a rendered digit is
just the decimal value. -/
theorem jsParseInt_digits (d : Nat) (hd : d < 10) (l : List Char)
    (hl : ∀ c ∈ l, c.isDigit = true) :
    jsParseInt (decDigit d :: l) = some ((decValue (decDigit d :: l) : Int)) := by
  have hds : (decDigit d :: l).takeWhile Char.isDigit = decDigit d :: l := by
    apply List.takeWhile_eq_self_iff.mpr
    intro c hc
    rcases List.mem_cons.mp hc with rfl | hc
    · exact isDigit_decDigit d hd
    · exact hl c hc
  have hdrop : (decDigit d :: l).dropWhile isJsSpace = decDigit d :: l := by
    rw [List.dropWhile_cons, decDigit_not_space d hd]
    simp
  unfold jsParseInt
  rw [hdrop]
  dsimp only
  split
  next r heq =>
    exfalso
    injection heq with h1 h2
    exact decDigit_ne_dash d hd h1
  next r heq =>
    exfalso
    injection heq with h1 h2
    exact decDigit_ne_plus d hd h1
  next =>
    rw [hds]
    simp

theorem decValue_four (d1 d2 d3 d4 : Nat) (h1 : d1 < 10) (h2 : d2 < 10) (h3 : d3 < 10)
    (h4 : d4 < 10) :
    decValue [decDigit d1, decDigit d2, decDigit d3, decDigit d4] =
      d1 * 1000 + d2 * 100 + d3 * 10 + d4 := by
  simp [decValue, digitVal_decDigit d1 h1, digitVal_decDigit d2 h2,
    digitVal_decDigit d3 h3, digitVal_decDigit d4 h4]
  ring

/-- The filter of `parseSingleYear` keeps a rendered digit. -/
theorem parseSingleYear_digits (d1 d2 d3 d4 : Nat) (h1 : d1 < 10) (h2 : d2 < 10)
    (h3 : d3 < 10) (h4 : d4 < 10) :
    parseSingleYear (some [decDigit d1, decDigit d2, decDigit d3, decDigit d4]) =
      some ((d1 * 1000 + d2 * 100 + d3 * 10 + d4 : Nat) : Int) := by
  have hfilter :
      List.filter (fun c => !(c = '<' || c = '>' || c = 'c' || c = 'a'))
        [decDigit d1, decDigit d2, decDigit d3, decDigit d4] =
      [decDigit d1, decDigit d2, decDigit d3, decDigit d4] := by
    simp only [List.filter, decDigit_kept d1 h1, decDigit_kept d2 h2, decDigit_kept d3 h3,
      decDigit_kept d4 h4]
  unfold parseSingleYear
  rw [Option.some_bind]
  rw [hfilter]
  rw [jsParseInt_digits d1 h1 _ (by
    intro c hc
    rcases List.mem_cons.mp hc with rfl | hc
    · exact isDigit_decDigit d2 h2
    rcases List.mem_cons.mp hc with rfl | hc
    · exact isDigit_decDigit d3 h3
    rcases List.mem_cons.mp hc with rfl | hc
    · exact isDigit_decDigit d4 h4
    simp at hc)]
  rw [decValue_four d1 d2 d3 d4 h1 h2 h3 h4]

/-- Counterexample to claim C3 as stated: `"(1920-ca1995)"` carries a
parenthesized year range whose death token `ca1995` is a 4-digit number
preceded by the `ca` approximation marker, yet `parseYears` does not return
`1995` for it (the right-hand alternation of the source regex has no `ca`
branch, so the whole range fails to match and both values come back
absent). -/
theorem parseYears_ca_death_counterexample :
    parseYears (("(1920-ca1995)").data) ≠ ((some 1920 : Option Int), (some 1995 : Option Int)) ∧
    parseYears (("(1920-ca1995)").data) = (none, none) := by
  constructor <;> decide

/-- Claim C3 as amended: `parseYears` finds the leftmost parenthesized year
range and returns the numeric value of each 4-digit token after stripping its
approximation marker, either side allowed to be absent — but the marker set
is asymmetric: the birth token admits `<`, `>` or `ca` while the death token
admits only `<` or `>`; a `ca`-marked death token makes the whole range
unrecognized (both values absent). -/
theorem parseYears_spec :
    (∀ d1 d2 d3 d4 d5 d6 d7 d8 : Nat, d1 < 10 → d2 < 10 → d3 < 10 → d4 < 10 →
      d5 < 10 → d6 < 10 → d7 < 10 → d8 < 10 →
      parseYears ('(' :: decDigit d1 :: decDigit d2 :: decDigit d3 :: decDigit d4 ::
          '-' :: decDigit d5 :: decDigit d6 :: decDigit d7 :: decDigit d8 :: [')']) =
        (some ((d1 * 1000 + d2 * 100 + d3 * 10 + d4 : Nat) : Int),
         some ((d5 * 1000 + d6 * 100 + d7 * 10 + d8 : Nat) : Int))) ∧
    parseYears (("(1920-1995)").data) = (some 1920, some 1995) ∧
    parseYears (("(ca1920-)").data) = (some 1920, none) ∧
    parseYears (("(<1920->1995)").data) = (some 1920, some 1995) ∧
    parseYears (("(1920-)").data) = (some 1920, none) ∧
    parseYears (("(-1995)").data) = (none, some 1995) ∧
    parseYears (("()").data) = (none, none) ∧
    parseYears (("free text with no range").data) = (none, none) ∧
    parseYears (("Nguyen Van A (ca1920-1995) tail").data) = (some 1920, some 1995) ∧
    parseYears (("(1920-ca1995)").data) = (none, none) := by
  refine ⟨?_, by decide, by decide, by decide, by decide, by decide, by decide,
    by decide, by decide, by decide⟩
  intro d1 d2 d3 d4 d5 d6 d7 d8 h1 h2 h3 h4 h5 h6 h7 h8
  have htake1 : take4digits (decDigit d1 :: decDigit d2 :: decDigit d3 :: decDigit d4 ::
      '-' :: decDigit d5 :: decDigit d6 :: decDigit d7 :: decDigit d8 :: [')']) =
      some ([decDigit d1, decDigit d2, decDigit d3, decDigit d4],
        '-' :: decDigit d5 :: decDigit d6 :: decDigit d7 :: decDigit d8 :: [')']) := by
    simp [take4digits, isDigit_decDigit d1 h1, isDigit_decDigit d2 h2,
      isDigit_decDigit d3 h3, isDigit_decDigit d4 h4]
  have htake2 : take4digits (decDigit d5 :: decDigit d6 :: decDigit d7 :: decDigit d8 ::
      [')']) = some ([decDigit d5, decDigit d6, decDigit d7, decDigit d8], [')']) := by
    simp [take4digits, isDigit_decDigit d5 h5, isDigit_decDigit d6 h6,
      isDigit_decDigit d7 h7, isDigit_decDigit d8 h8]
  have hdrop5 : List.dropWhile isJsSpace (decDigit d5 :: decDigit d6 :: decDigit d7 ::
      decDigit d8 :: [')']) = decDigit d5 :: decDigit d6 :: decDigit d7 :: decDigit d8 ::
      [')'] := by
    rw [List.dropWhile_cons, decDigit_not_space d5 h5]
    simp
  have hg2 : matchYearsG2 (decDigit d5 :: decDigit d6 :: decDigit d7 :: decDigit d8 ::
      [')']) = some (some [decDigit d5, decDigit d6, decDigit d7, decDigit d8], []) := by
    unfold matchYearsG2
    rw [htake2]
    rfl
  have hdash : matchYearsDash (some [decDigit d1, decDigit d2, decDigit d3, decDigit d4])
      ('-' :: decDigit d5 :: decDigit d6 :: decDigit d7 :: decDigit d8 :: [')']) =
      some (some [decDigit d1, decDigit d2, decDigit d3, decDigit d4],
        some [decDigit d5, decDigit d6, decDigit d7, decDigit d8]) := by
    have hstep : matchYearsDash (some [decDigit d1, decDigit d2, decDigit d3, decDigit d4])
        ('-' :: decDigit d5 :: decDigit d6 :: decDigit d7 :: decDigit d8 :: [')']) =
        match matchYearsG2 (List.dropWhile isJsSpace (decDigit d5 :: decDigit d6 ::
          decDigit d7 :: decDigit d8 :: [')'])) with
        | some (g2, _) => some (some [decDigit d1, decDigit d2, decDigit d3, decDigit d4], g2)
        | none => none := rfl
    rw [hstep, hdrop5, hg2]
  have hat : matchYearsAt (decDigit d1 :: decDigit d2 :: decDigit d3 :: decDigit d4 ::
      '-' :: decDigit d5 :: decDigit d6 :: decDigit d7 :: decDigit d8 :: [')']) =
      some (some [decDigit d1, decDigit d2, decDigit d3, decDigit d4],
        some [decDigit d5, decDigit d6, decDigit d7, decDigit d8]) := by
    unfold matchYearsAt
    rw [htake1]
    show (matchYearsDash (some [decDigit d1, decDigit d2, decDigit d3, decDigit d4])
      ('-' :: decDigit d5 :: decDigit d6 :: decDigit d7 :: decDigit d8 :: [')']) <|> _) = _
    rw [hdash]
    rfl
  have hsearch : searchYears ('(' :: decDigit d1 :: decDigit d2 :: decDigit d3 ::
      decDigit d4 :: '-' :: decDigit d5 :: decDigit d6 :: decDigit d7 :: decDigit d8 ::
      [')']) = some (some [decDigit d1, decDigit d2, decDigit d3, decDigit d4],
        some [decDigit d5, decDigit d6, decDigit d7, decDigit d8]) := by
    have hstep : searchYears ('(' :: decDigit d1 :: decDigit d2 :: decDigit d3 ::
        decDigit d4 :: '-' :: decDigit d5 :: decDigit d6 :: decDigit d7 :: decDigit d8 ::
        [')']) =
        match matchYearsAt (decDigit d1 :: decDigit d2 :: decDigit d3 ::
          decDigit d4 :: '-' :: decDigit d5 :: decDigit d6 :: decDigit d7 :: decDigit d8 ::
          [')']) with
        | some g => some g
        | none => searchYears (decDigit d1 :: decDigit d2 :: decDigit d3 ::
            decDigit d4 :: '-' :: decDigit d5 :: decDigit d6 :: decDigit d7 ::
            decDigit d8 :: [')']) := rfl
    rw [hstep, hat]
  unfold parseYears
  rw [hsearch]
  show (parseSingleYear (some [decDigit d1, decDigit d2, decDigit d3, decDigit d4]),
    parseSingleYear (some [decDigit d5, decDigit d6, decDigit d7, decDigit d8])) = _
  rw [parseSingleYear_digits d1 d2 d3 d4 h1 h2 h3 h4,
    parseSingleYear_digits d5 d6 d7 d8 h5 h6 h7 h8]

/-- Witness for the general component of the amended C3 theorem at the
concrete range `(1920-1995)`. -/
theorem parseYears_spec_witness :
    parseYears ('(' :: decDigit 1 :: decDigit 9 :: decDigit 2 :: decDigit 0 ::
        '-' :: decDigit 1 :: decDigit 9 :: decDigit 9 :: decDigit 5 :: [')']) =
      (some ((1 * 1000 + 9 * 100 + 2 * 10 + 0 : Nat) : Int),
       some ((1 * 1000 + 9 * 100 + 9 * 10 + 5 : Nat) : Int)) :=
  parseYears_spec.1 1 9 2 0 1 9 9 5 (by decide) (by decide) (by decide) (by decide)
    (by decide) (by decide) (by decide) (by decide)

/-! ### Name extraction identity (claim C4) -/

theorem removeParensAux_id : ∀ fuel l, (∀ c ∈ l, ¬(c = '(')) →
    removeParensAux fuel l = l := by
  intro fuel
  induction fuel with
  | zero => intro l _; rfl
  | succ fuel ih =>
    intro l hp
    cases l with
    | nil => rfl
    | cons c rest =>
      have hc : ¬(c = '(') := hp c (List.mem_cons_self c rest)
      show removeParensAux (fuel + 1) (c :: rest) = c :: rest
      unfold removeParensAux
      rw [if_neg hc, ih rest (fun x hx => hp x (List.mem_cons_of_mem c hx))]

theorem annotReplaceAux_id : ∀ fuel l, annotFree l = true →
    annotReplaceAux fuel l = l := by
  intro fuel
  induction fuel with
  | zero => intro l _; rfl
  | succ fuel ih =>
    intro l h
    cases l with
    | nil => rfl
    | cons c rest =>
      rw [show annotFree (c :: rest) =
        ((annotMatchAt (c :: rest)).isNone && annotFree rest) from rfl] at h
      rw [Bool.and_eq_true] at h
      have hm : annotMatchAt (c :: rest) = none := by
        rcases h with ⟨h1, _⟩
        simpa [Option.isNone_iff_eq_none] using h1
      show annotReplaceAux (fuel + 1) (c :: rest) = c :: rest
      unfold annotReplaceAux
      rw [hm]
      rw [ih rest h.2]

/-- Claim C4: on an input with no parenthesis characters and no position
matching the localized-name annotation pattern, `extractName` is exactly
trimming — capitalization and internal spacing are untouched. -/
theorem extractName_plain (s : String)
    (hpar : ∀ c ∈ s.data, ¬(c = '(') ∧ ¬(c = ')'))
    (hann : annotFree s.data = true) :
    extractName s = jsTrimStr s := by
  unfold extractName jsTrimStr extractNameL
  rw [show removeParens s.data = s.data from
    removeParensAux_id s.data.length s.data (fun c hc => (hpar c hc).1)]
  rw [show annotReplace s.data = s.data from
    annotReplaceAux_id s.data.length s.data hann]

/-- Witness for C4 on a trimmable input with internal double spacing and
mixed case. -/
theorem extractName_plain_witness :
    extractName ("  John  McSMITH jr  ") = jsTrimStr ("  John  McSMITH jr  ") :=
  extractName_plain _ (by decide) (by decide)

/-! ### Metadata line effects (claim C6) -/

theorem applyMeta_no_focus (st : ParseState) (l : List Char)
    (hf : st.currentPersonId = none) : applyMeta st l = st := by
  unfold applyMeta
  rw [hf]

/-- Claim C6: a marriage-date or divorce-date line only has an effect while a
most-recent-spouse is active (it sets that date on that spouse, and is a
complete no-op otherwise); a localized-name line goes to the active
most-recent-spouse if there is one and to the focus person otherwise; and
with no current focus person, any line that is not a new-person record —
in particular every metadata line — leaves the parse state unchanged. -/
theorem metadata_effects (st : ParseState) (raw l : List Char) (fid : String)
    (ref : String × Nat) (v : List Char) :
    (st.currentPersonId = none → matchGeneration (normalizeLine raw) = none →
      processLine st raw = st) ∧
    (st.currentPersonId = some fid → matchTagPlus aliTag l = none →
      matchTagPlus houseTag l = none → matchTagPlus vnTag l = none →
      matchTagPlus memTag l = none → matchTagPlus relTag l = none →
      matchTagStar mTag l = some v →
      (st.currentSpouseRef = none → applyMeta st l = st) ∧
      (st.currentSpouseRef = some ref → applyMeta st l =
        { st with personMap := updateSpouseAt st.personMap ref (fun sp => { sp with marriageDate := some (metaValue v) }) })) ∧
    (st.currentPersonId = some fid → matchTagPlus aliTag l = none →
      matchTagPlus houseTag l = none → matchTagPlus vnTag l = none →
      matchTagPlus memTag l = none → matchTagPlus relTag l = none →
      matchTagStar mTag l = none → matchTagStar divTag l = some v →
      (st.currentSpouseRef = none → applyMeta st l = st) ∧
      (st.currentSpouseRef = some ref → applyMeta st l =
        { st with personMap := updateSpouseAt st.personMap ref (fun sp => { sp with divorceDate := some (metaValue v) }) })) ∧
    (st.currentPersonId = some fid → matchTagPlus aliTag l = none →
      matchTagPlus houseTag l = none → matchTagPlus vnTag l = some v →
      (st.currentSpouseRef = none → applyMeta st l =
        { st with personMap := updatePerson st.personMap fid (fun p => { p with nameVN := some (metaValue v) }) }) ∧
      (st.currentSpouseRef = some ref → applyMeta st l =
        { st with personMap := updateSpouseAt st.personMap ref (fun sp => { sp with nameVN := some (metaValue v) }) })) := by
  refine ⟨?_, ?_, ?_, ?_⟩
  · intro hf hg
    unfold processLine
    by_cases hskip : (normalizeLine raw).isEmpty || hasSubstr descendantChartTag (normalizeLine raw)
    · simp only [hskip, if_true]
    · simp only [hskip, if_false, hg]
      cases hsp : matchSpouse (normalizeLine raw) <;>
        simp [hsp, hf, applyMeta_no_focus st _ hf]
  · intro hfocus h1 h2 h3 h4 h5 h6
    constructor
    · intro hs
      simp only [applyMeta, hfocus, h1, h2, h3, h4, h5, h6, hs]
    · intro hs
      simp only [applyMeta, hfocus, h1, h2, h3, h4, h5, h6, hs]
  · intro hfocus h1 h2 h3 h4 h5 h6 h7
    constructor
    · intro hs
      simp only [applyMeta, hfocus, h1, h2, h3, h4, h5, h6, h7, hs]
    · intro hs
      simp only [applyMeta, hfocus, h1, h2, h3, h4, h5, h6, h7, hs]
  · intro hfocus h1 h2 h3
    constructor
    · intro hs
      simp only [applyMeta, hfocus, h1, h2, h3, hs]
    · intro hs
      simp only [applyMeta, hfocus, h1, h2, h3, hs]

/-- Witness for C6: a marriage line before any person is a no-op; a marriage
line updates Carol once she is the active spouse; a divorce line with no
active spouse is a no-op; a localized-name line with no active spouse goes to
the focus person. -/
theorem metadata_effects_witness :
    processLine initState (("m. Jan 2011").data) = initState ∧
    applyMeta (processLine (processLine initState (("(1) 1 Ann").data)) (("& Carol").data))
        (("m. Jan 2011").data) =
      { processLine (processLine initState (("(1) 1 Ann").data)) (("& Carol").data) with
        personMap := updateSpouseAt (processLine (processLine initState
          (("(1) 1 Ann").data)) (("& Carol").data)).personMap (("root_g1-1"), 0) (fun sp => { sp with marriageDate := some (metaValue (("Jan 2011").data)) }) } ∧
    applyMeta (processLine initState (("(1) 1 Ann").data)) (("div. 2015").data) =
      processLine initState (("(1) 1 Ann").data) ∧
    applyMeta (processLine initState (("(1) 1 Ann").data)) (("TênVN. Hoa").data) =
      { processLine initState (("(1) 1 Ann").data) with
        personMap := updatePerson (processLine initState
          (("(1) 1 Ann").data)).personMap ("root_g1-1") (fun p => { p with nameVN := some (metaValue (("Hoa").data)) }) } := by
  refine ⟨?_, ?_, ?_, ?_⟩
  · exact (metadata_effects initState (("m. Jan 2011").data) (("m. Jan 2011").data)
      ("x") (("x"), 0) []).1 rfl (by decide)
  · exact ((metadata_effects _ [] (("m. Jan 2011").data) ("root_g1-1")
      (("root_g1-1"), 0) (("Jan 2011").data)).2.1 (by decide) (by decide) (by decide)
      (by decide) (by decide) (by decide) (by decide)).2 (by decide)
  · exact ((metadata_effects _ [] (("div. 2015").data) ("root_g1-1")
      (("x"), 0) (("2015").data)).2.2.1 (by decide) (by decide) (by decide)
      (by decide) (by decide) (by decide) (by decide) (by decide)).1 (by decide)
  · exact ((metadata_effects _ [] (("TênVN. Hoa").data) ("root_g1-1")
      (("x"), 0) (("Hoa").data)).2.2.2 (by decide) (by decide) (by decide)
      (by decide)).1 (by decide)

/-! ### Shared helper: the found/merge branch of a person record -/

theorem processPersonRecord_found_eq (st : ParseState) (g : Nat) (idx rest : List Char)
    (fid : String)
    (h : probeAux st.personMap (canonicalId st g idx) ⟨extractNameL rest⟩
      (st.personMap.length + 1) 1 = some (fid, true)) :
    processPersonRecord st g idx rest =
      { st with
        currentPersonId := some fid,
        currentSpouseRef := none,
        parentStack := (g, fid) :: popStack st.parentStack g } := by
  unfold processPersonRecord
  dsimp only
  rw [h]

/-- The fresh branch of a person record, as an explicit state equation. -/
theorem processPersonRecord_fresh_eq (st : ParseState) (g : Nat) (idx rest : List Char)
    (fid : String)
    (h : probeAux st.personMap (canonicalId st g idx) ⟨extractNameL rest⟩
      (st.personMap.length + 1) 1 = some (fid, false)) :
    processPersonRecord st g idx rest =
      { personMap :=
          match ((popStack st.parentStack g).head?).map (·.2) with
          | some pid =>
            attachChild (setPerson st.personMap fid
              (newPersonOf fid g idx rest (((popStack st.parentStack g).head?).map (·.2))))
              pid fid
          | none =>
            setPerson st.personMap fid
              (newPersonOf fid g idx rest (((popStack st.parentStack g).head?).map (·.2))),
        currentPersonId := some fid,
        currentSpouseRef := none,
        parentStack := (g, fid) :: popStack st.parentStack g,
        rootId := if g = 1 ∧ st.rootId = "" then fid else st.rootId } := by
  unfold processPersonRecord
  dsimp only
  rw [h]
  rfl

/-! ### Identity resolution on a shared canonical slot (claim C1) -/

theorem candId_two (c : String) : candId c 2 = c ++ "_2" := by
  show (if (2:Nat) = 1 then c else c ++ "_" ++ natToDec 2) = c ++ "_2"
  rw [if_neg (by omega : ¬(2:Nat) = 1)]
  apply String.ext
  show (c.data ++ ('_' :: List.nil)) ++ (natToDec 2).data = c.data ++ ('_' :: '2' :: List.nil)
  rw [show (natToDec 2).data = '2' :: List.nil from rfl, List.append_assoc]
  rfl

theorem self_ne_append_two (c : String) : ¬(c = c ++ "_2") := by
  intro h
  have := congrArg (fun s : String => s.data.length) h
  simp only [strData_append, List.length_append] at this
  simp at this

/-- Claim C1: two new-person records aimed at the same (empty) root-level
canonical slot. The first claims the canonical identity as a brand-new
Person. If the second record's name is equal to the first's under
case-insensitive whitespace-collapsed comparison, it is resolved to the very
same identity and the person map is untouched (exactly one Person); if the
names differ, the second record claims the first numbered-suffix variant
`canonical ++ "_2"` as a second, distinct Person, and each Person retains its
own name. -/
theorem slot_collision_resolution (st : ParseState) (g : Nat)
    (idx1 idx2 rest1 rest2 : List Char)
    (hstack : st.parentStack = [])
    (h1 : lookupPerson st.personMap
      ("root_g" ++ natToDec g ++ "-" ++ ⟨stripTrailingLower idx1⟩) = none)
    (h2 : lookupPerson st.personMap
      (("root_g" ++ natToDec g ++ "-" ++ ⟨stripTrailingLower idx1⟩) ++ "_2") = none)
    (hbase : stripTrailingLower idx1 = stripTrailingLower idx2) :
    (processPersonRecord st g idx1 rest1).personMap =
      st.personMap ++
        [(("root_g" ++ natToDec g ++ "-" ++ ⟨stripTrailingLower idx1⟩ : String),
          { id := ("root_g" ++ natToDec g ++ "-" ++ ⟨stripTrailingLower idx1⟩ : String),
            generation := g, childIndex := ⟨idx1⟩, name := ⟨extractNameL rest1⟩,
            birthYear := (parseYears rest1).1, deathYear := (parseYears rest1).2,
            spouses := [], parentId := none })] ∧
    (normName ⟨extractNameL rest1⟩ = normName ⟨extractNameL rest2⟩ →
      (processPersonRecord (processPersonRecord st g idx1 rest1) g idx2 rest2).personMap =
        (processPersonRecord st g idx1 rest1).personMap ∧
      (processPersonRecord (processPersonRecord st g idx1 rest1) g idx2
          rest2).currentPersonId =
        some ("root_g" ++ natToDec g ++ "-" ++ ⟨stripTrailingLower idx1⟩)) ∧
    (¬(normName ⟨extractNameL rest1⟩ = normName ⟨extractNameL rest2⟩) →
      (processPersonRecord (processPersonRecord st g idx1 rest1) g idx2 rest2).personMap =
        (processPersonRecord st g idx1 rest1).personMap ++
          [((("root_g" ++ natToDec g ++ "-" ++ ⟨stripTrailingLower idx1⟩) ++ "_2" : String),
            { id := (("root_g" ++ natToDec g ++ "-" ++ ⟨stripTrailingLower idx1⟩) ++ "_2" : String),
              generation := g, childIndex := ⟨idx2⟩, name := ⟨extractNameL rest2⟩,
              birthYear := (parseYears rest2).1, deathYear := (parseYears rest2).2,
              spouses := [], parentId := none })] ∧
      ¬(("root_g" ++ natToDec g ++ "-" ++ ⟨stripTrailingLower idx1⟩ : String) =
        ("root_g" ++ natToDec g ++ "-" ++ ⟨stripTrailingLower idx1⟩) ++ "_2")) := by
  set c : String := "root_g" ++ natToDec g ++ "-" ++ ⟨stripTrailingLower idx1⟩ with hc
  set P1 : Person :=
    { id := c, generation := g, childIndex := ⟨idx1⟩, name := ⟨extractNameL rest1⟩,
      birthYear := (parseYears rest1).1, deathYear := (parseYears rest1).2,
      spouses := [], parentId := none } with hP1
  have hcanon1 : canonicalId st g idx1 = c := by
    unfold canonicalId
    rw [hstack]
    rfl
  have hprobe1 : probeAux st.personMap c ⟨extractNameL rest1⟩
      (st.personMap.length + 1) 1 = some (c, false) := by
    rw [probeAux_unfold]
    rw [show candId c 1 = c from rfl, h1]
  have hst1 : processPersonRecord st g idx1 rest1 =
      { personMap := setPerson st.personMap c P1, currentPersonId := some c,
        currentSpouseRef := none, parentStack := [(g, c)],
        rootId := if g = 1 ∧ st.rootId = "" then c else st.rootId } := by
    unfold processPersonRecord
    dsimp only
    rw [hstack, hcanon1, hprobe1]
    rfl
  have hmap1 : (processPersonRecord st g idx1 rest1).personMap =
      st.personMap ++ [(c, P1)] := by
    rw [hst1]
    exact setPerson_of_lookup_none st.personMap c P1 h1
  have hpop : popStack ((g, c) :: []) g = [] := by
    unfold popStack
    rw [if_pos (le_refl g)]
    rfl
  have hcanon2 : canonicalId (processPersonRecord st g idx1 rest1) g idx2 = c := by
    unfold canonicalId
    rw [hst1]
    show (match (popStack ((g, c) :: []) g).head? with
      | some pr => pr.2 ++ "_g" ++ natToDec g ++ "-" ++ ⟨stripTrailingLower idx2⟩
      | none => "root_g" ++ natToDec g ++ "-" ++ ⟨stripTrailingLower idx2⟩) = c
    rw [hpop, hc, ← hbase]
    rfl
  have hlookc : lookupPerson (processPersonRecord st g idx1 rest1).personMap c =
      some P1 := by
    rw [hmap1, lookupPerson_append, h1]
    show lookupPerson ((c, P1) :: []) c = some P1
    unfold lookupPerson
    rw [if_pos rfl]
  refine ⟨hmap1, ?_, ?_⟩
  · intro hnames
    have hprobe2 : probeAux (processPersonRecord st g idx1 rest1).personMap
        (canonicalId (processPersonRecord st g idx1 rest1) g idx2)
        ⟨extractNameL rest2⟩
        ((processPersonRecord st g idx1 rest1).personMap.length + 1) 1 =
        some (c, true) := by
      rw [hcanon2]
      rw [probeAux_step_occupied _ c _ _ 1 P1
        (by rw [show candId c 1 = c from rfl]; exact hlookc)]
      rw [if_pos (show normName P1.name = normName (⟨extractNameL rest2⟩ : String)
        from hnames)]
      rfl
    have := processPersonRecord_found_eq (processPersonRecord st g idx1 rest1) g idx2
      rest2 c hprobe2
    rw [this]
    exact ⟨rfl, rfl⟩
  · intro hnames
    have hlen1 : (processPersonRecord st g idx1 rest1).personMap.length =
        st.personMap.length + 1 := by
      rw [hmap1, List.length_append]
      rfl
    have hc2 : candId c 2 = c ++ "_2" := candId_two c
    have hne : ¬(c = c ++ "_2") := self_ne_append_two c
    have hlookc2 : lookupPerson (processPersonRecord st g idx1 rest1).personMap
        (c ++ "_2") = none := by
      rw [hmap1, lookupPerson_append, h2]
      show lookupPerson ((c, P1) :: []) (c ++ "_2") = none
      unfold lookupPerson
      rw [if_neg hne]
      rfl
    have hprobe2 : probeAux (processPersonRecord st g idx1 rest1).personMap
        (canonicalId (processPersonRecord st g idx1 rest1) g idx2)
        ⟨extractNameL rest2⟩
        ((processPersonRecord st g idx1 rest1).personMap.length + 1) 1 =
        some (c ++ "_2", false) := by
      rw [hcanon2, hlen1]
      rw [probeAux_step_occupied _ c _ (st.personMap.length + 1) 1 P1
        (by rw [show candId c 1 = c from rfl]; exact hlookc)]
      rw [if_neg (show ¬(normName P1.name = normName (⟨extractNameL rest2⟩ : String))
        from hnames)]
      have hcid2 : candId c (1 + 1) = c ++ "_2" := by
        rw [show ((1:Nat) + 1) = 2 from rfl]
        exact hc2
      rw [probeAux_step_free _ c _ st.personMap.length (1 + 1)
        (by rw [hcid2]; exact hlookc2)]
      rw [hcid2]
    have hfresh := processPersonRecord_fresh_eq (processPersonRecord st g idx1 rest1)
      g idx2 rest2 (c ++ "_2") hprobe2
    have hstk1 : (processPersonRecord st g idx1 rest1).parentStack = (g, c) :: [] := by
      rw [hst1]
    rw [hstk1, hpop] at hfresh
    constructor
    · rw [hfresh]
      show setPerson (processPersonRecord st g idx1 rest1).personMap (c ++ "_2")
        (newPersonOf (c ++ "_2") g idx2 rest2 none) = _
      exact setPerson_of_lookup_none _ _ _ hlookc2
    · exact hne

/-- Witness for C1: records `(1) 1a Ann` then `(1) 1b ANN` merge into one
Person; the distinct-name branch is exercised via `ANN` versus `Beth`. -/
theorem slot_collision_resolution_witness :
    (processPersonRecord initState 1 (("1a").data) (("Ann").data)).personMap =
      initState.personMap ++
        [(("root_g1-1"),
          { id := ("root_g1-1"), generation := 1, childIndex := ("1a"),
            name := ("Ann"), birthYear := none, deathYear := none,
            spouses := [], parentId := none })] ∧
    (processPersonRecord (processPersonRecord initState 1 (("1a").data) (("Ann").data)) 1
        (("1b").data) (("ANN").data)).personMap =
      (processPersonRecord initState 1 (("1a").data) (("Ann").data)).personMap := by
  have hmain := slot_collision_resolution initState 1 (("1a").data) (("1b").data)
    (("Ann").data) (("ANN").data) rfl (by decide) (by decide) (by decide)
  constructor
  · have := hmain.1
    rw [this]
    decide
  · exact (hmain.2.1 (by decide)).1

/-! ### Child attachment to the most recently added spouse (claim C5) -/

theorem modifyLast_guard_eq (fid : String) :
    ∀ l : List Spouse, (∀ sp, l.getLast? = some sp → ¬(fid ∈ sp.childrenIds)) →
      modifyLast (fun sp => if fid ∈ sp.childrenIds then sp
        else { sp with childrenIds := sp.childrenIds ++ [fid] }) l =
      modifyLast (fun sp => { sp with childrenIds := sp.childrenIds ++ [fid] }) l := by
  intro l
  induction l with
  | nil => intro _; rfl
  | cons a r ih =>
    intro hfr
    cases r with
    | nil =>
      have := hfr a (by rfl)
      show [if fid ∈ a.childrenIds then a else _] = _
      rw [if_neg this]
      rfl
    | cons b r2 =>
      show a :: modifyLast _ (b :: r2) = a :: modifyLast _ (b :: r2)
      rw [ih (fun sp hsp => hfr sp (by rw [List.getLast?_cons_cons]; exact hsp))]

theorem mem_modifyLast (f : Spouse → Spouse) :
    ∀ l sp, sp ∈ modifyLast f l →
      sp ∈ l ∨ ∃ sp₀, l.getLast? = some sp₀ ∧ sp = f sp₀ := by
  intro l
  induction l with
  | nil => intro sp h; simp [modifyLast] at h
  | cons a r ih =>
    intro sp h
    cases r with
    | nil =>
      rcases List.mem_singleton.mp h with rfl
      exact Or.inr ⟨a, rfl, rfl⟩
    | cons b r2 =>
      rcases List.mem_cons.mp h with rfl | h2
      · exact Or.inl (List.mem_cons_self _ _)
      · rcases ih sp h2 with h3 | ⟨sp₀, h4, h5⟩
        · exact Or.inl (List.mem_cons_of_mem _ h3)
        · exact Or.inr ⟨sp₀, by rw [List.getLast?_cons_cons]; exact h4, h5⟩

/-- Claim C5: a brand-new person with an existing parent. If the parent has at
least one `Spouse`, the new identity is appended to the children list of the
parent's most recently added (last) spouse without introducing a duplicate;
if the parent has no spouse, the person is still added to the map with its
`parentId` set but appears in no spouse's children list. -/
theorem child_attachment (st : ParseState) (g : Nat) (idx rest : List Char)
    (pg : Nat) (pid fid : String) (parent : Person)
    (hpar : (popStack st.parentStack g).head? = some (pg, pid))
    (hprobe : probeAux st.personMap (canonicalId st g idx) ⟨extractNameL rest⟩
      (st.personMap.length + 1) 1 = some (fid, false))
    (hparent : lookupPerson st.personMap pid = some parent) :
    (¬(parent.spouses = []) →
      (∀ sp, parent.spouses.getLast? = some sp → ¬(fid ∈ sp.childrenIds)) →
      lookupPerson (processPersonRecord st g idx rest).personMap pid =
        some { parent with spouses := modifyLast (fun sp => { sp with childrenIds := sp.childrenIds ++ [fid] }) parent.spouses } ∧
      lookupPerson (processPersonRecord st g idx rest).personMap fid =
        some (newPersonOf fid g idx rest (some pid)) ∧
      ((∀ sp ∈ parent.spouses, sp.childrenIds.Nodup) →
        ∀ sp ∈ modifyLast (fun sp => { sp with childrenIds := sp.childrenIds ++ [fid] })
          parent.spouses, sp.childrenIds.Nodup)) ∧
    (parent.spouses = [] →
      (processPersonRecord st g idx rest).personMap =
        setPerson st.personMap fid (newPersonOf fid g idx rest (some pid)) ∧
      lookupPerson (processPersonRecord st g idx rest).personMap fid =
        some (newPersonOf fid g idx rest (some pid)) ∧
      (newPersonOf fid g idx rest (some pid)).parentId = some pid ∧
      ((∀ k q, lookupPerson st.personMap k = some q → ∀ sp ∈ q.spouses,
          ¬(fid ∈ sp.childrenIds)) →
        ∀ k q, lookupPerson (processPersonRecord st g idx rest).personMap k = some q →
          ∀ sp ∈ q.spouses, ¬(fid ∈ sp.childrenIds))) := by
  obtain ⟨s', hs', hfid, hfree⟩ := probeAux_fresh st.personMap _ _ _ _ _ hprobe
  have hne : ¬(pid = fid) := by
    intro h
    rw [h, hfree] at hparent
    exact Option.noConfusion hparent
  have hm2 : (processPersonRecord st g idx rest).personMap =
      attachChild (setPerson st.personMap fid
        (newPersonOf fid g idx rest (some pid))) pid fid := by
    rw [processPersonRecord_fresh_eq st g idx rest fid hprobe]
    rw [hpar]
    rfl
  have hlook1 : lookupPerson (setPerson st.personMap fid
      (newPersonOf fid g idx rest (some pid))) pid = some parent := by
    rw [lookupPerson_setPerson, if_neg (fun h => hne h.symm), hparent]
  constructor
  · intro hsp hfr
    have hempty : parent.spouses.isEmpty = false := by
      cases hsp2 : parent.spouses with
      | nil => exact absurd hsp2 hsp
      | cons a r => rfl
    have hatt : attachChild (setPerson st.personMap fid
        (newPersonOf fid g idx rest (some pid))) pid fid =
        updatePerson (setPerson st.personMap fid (newPersonOf fid g idx rest (some pid))) pid (fun p => { p with spouses := modifyLast (fun sp => if fid ∈ sp.childrenIds then sp else { sp with childrenIds := sp.childrenIds ++ [fid] }) p.spouses }) := by
      unfold attachChild
      rw [hlook1]
      show (if parent.spouses.isEmpty = true then _ else _) = _
      rw [hempty]
      simp
    refine ⟨?_, ?_, ?_⟩
    · rw [hm2, hatt, lookupPerson_updatePerson, if_pos rfl, hlook1]
      show some _ = some _
      rw [Option.some.injEq]
      show { parent with spouses := modifyLast _ parent.spouses } = _
      rw [modifyLast_guard_eq fid parent.spouses hfr]
    · rw [hm2, hatt, lookupPerson_updatePerson, if_neg hne, lookupPerson_setPerson,
        if_pos rfl]
    · intro hnd sp hsp2
      rcases mem_modifyLast _ parent.spouses sp hsp2 with h3 | ⟨sp₀, h4, h5⟩
      · exact hnd sp h3
      · subst h5
        have hmem0 : sp₀ ∈ parent.spouses := by
          obtain ⟨hnn, heq⟩ := List.mem_getLast?_eq_getLast (Option.mem_def.mpr h4)
          rw [heq]
          exact List.getLast_mem hnn
        show (sp₀.childrenIds ++ [fid]).Nodup
        rw [List.nodup_append]
        refine ⟨hnd sp₀ hmem0, List.nodup_singleton fid, ?_⟩
        intro a ha hafid
        rcases List.mem_singleton.mp hafid with rfl
        exact hfr sp₀ h4 ha
  · intro hsp
    have hatt : attachChild (setPerson st.personMap fid
        (newPersonOf fid g idx rest (some pid))) pid fid =
        setPerson st.personMap fid (newPersonOf fid g idx rest (some pid)) := by
      unfold attachChild
      rw [hlook1]
      show (if parent.spouses.isEmpty = true then _ else _) = _
      rw [hsp]
      rfl
    have hmap : (processPersonRecord st g idx rest).personMap =
        setPerson st.personMap fid (newPersonOf fid g idx rest (some pid)) := by
      rw [hm2, hatt]
    refine ⟨hmap, ?_, rfl, ?_⟩
    · rw [hmap, lookupPerson_setPerson, if_pos rfl]
    · intro hold k q hq sp hsp2 hmem
      rw [hmap, lookupPerson_setPerson] at hq
      by_cases hk : fid = k
      · rw [if_pos hk] at hq
        rw [Option.some.injEq] at hq
        subst hq
        simp [newPersonOf] at hsp2
      · rw [if_neg hk] at hq
        exact hold k q hq sp hsp2 hmem

/-- Witness for C5 on the spec's unattached-child scenario
`(1) 1 Ann` then `(2) 1 Bob` (Ann has no spouse). -/
theorem child_attachment_witness :
    (processPersonRecord (processLine initState (("(1) 1 Ann").data)) 2 (("1").data)
        (("Bob").data)).personMap =
      setPerson (processLine initState (("(1) 1 Ann").data)).personMap
        ("root_g1-1_g2-1")
        (newPersonOf ("root_g1-1_g2-1") 2 (("1").data) (("Bob").data)
          (some ("root_g1-1"))) ∧
    lookupPerson (processPersonRecord (processLine initState (("(1) 1 Ann").data)) 2
        (("1").data) (("Bob").data)).personMap ("root_g1-1_g2-1") =
      some (newPersonOf ("root_g1-1_g2-1") 2 (("1").data) (("Bob").data)
        (some ("root_g1-1"))) ∧
    (newPersonOf ("root_g1-1_g2-1") 2 (("1").data) (("Bob").data)
      (some ("root_g1-1"))).parentId = some ("root_g1-1") := by
  have h := (child_attachment (processLine initState (("(1) 1 Ann").data)) 2
    (("1").data) (("Bob").data) 1 ("root_g1-1") ("root_g1-1_g2-1")
    { id := ("root_g1-1"), generation := 1, childIndex := ("1"), name := ("Ann"),
      spouses := [], parentId := none }
    (by decide) (by decide) (by decide)).2 rfl
  exact ⟨h.1, h.2.1, h.2.2.1⟩

/-! ### The merge case is pure re-entry (claim C7) -/

/-- Claim C7: when a new-person record resolves to an already-existing
identity, the person map is left completely untouched (no new `Person`, no
field of any existing `Person` modified, root unchanged): the record only
makes the resolved person the current focus, pushes its (generation,
identity) pair on the ancestry stack, and clears the most-recent-spouse
pointer; moreover the resolved identity really is occupied, by a person
whose normalised name matches the record's. -/
theorem processPersonRecord_merge (st : ParseState) (g : Nat) (idx rest : List Char)
    (fid : String)
    (h : probeAux st.personMap (canonicalId st g idx) ⟨extractNameL rest⟩
      (st.personMap.length + 1) 1 = some (fid, true)) :
    processPersonRecord st g idx rest =
      { st with
        currentPersonId := some fid,
        currentSpouseRef := none,
        parentStack := (g, fid) :: popStack st.parentStack g } ∧
    ∃ q, lookupPerson st.personMap fid = some q ∧
      normName q.name = normName ⟨extractNameL rest⟩ := by
  constructor
  · exact processPersonRecord_found_eq st g idx rest fid h
  · obtain ⟨s', q, _, _, hq, hn⟩ := probeAux_found st.personMap _ _ _ _ _ h
    exact ⟨q, hq, hn⟩

/-- Witness for C7: re-entering Ann via the split index `1a` after
`(1) 1 Ann`. -/
theorem processPersonRecord_merge_witness :
    processPersonRecord (processLine initState (("(1) 1 Ann").data)) 1
        (("1a").data) (("Ann").data) =
      { processLine initState (("(1) 1 Ann").data) with
        currentPersonId := some ("root_g1-1"),
        currentSpouseRef := none,
        parentStack := (1, "root_g1-1") ::
          popStack (processLine initState (("(1) 1 Ann").data)).parentStack 1 } :=
  (processPersonRecord_merge _ 1 _ _ ("root_g1-1") (by decide)).1

/-! ### The shape of minted identities: `genOfKeyL` computations -/

theorem data_mk (l : List Char) : (⟨l⟩ : String).data = l := rfl

theorem isDigit_ne {c d : Char} (h : c.isDigit = true) (hd : d.isDigit = false) :
    ¬(c = d) := by
  intro he
  rw [he, hd] at h
  exact Bool.noConfusion h

theorem genMarkAt_not_underscore {c : Char} (r : List Char) (hc : ¬(c = '_')) :
    genMarkAt (c :: r) = none := by
  unfold genMarkAt
  split
  next heq =>
    exfalso
    injection heq with h1 _
    exact hc h1
  next => rfl

theorem genMarkAt_underscore_not_g {c : Char} (r : List Char) (hc : ¬(c = 'g')) :
    genMarkAt ('_' :: c :: r) = none := by
  unfold genMarkAt
  split
  next heq =>
    exfalso
    injection heq with _ h2
    injection h2 with h3 _
    exact hc h3
  next => rfl

theorem genOfKeyL_cons (c : Char) (r : List Char) :
    genOfKeyL (c :: r) =
      match genOfKeyL r with
      | some g => some g
      | none => genMarkAt (c :: r) := rfl

theorem genOfKeyL_cons_none {c : Char} {r : List Char} (h1 : genOfKeyL r = none)
    (h2 : genMarkAt (c :: r) = none) : genOfKeyL (c :: r) = none := by
  rw [genOfKeyL_cons, h1, h2]

theorem genOfKeyL_cons_some {c : Char} {r : List Char} {g : Nat}
    (h1 : genOfKeyL r = some g) : genOfKeyL (c :: r) = some g := by
  rw [genOfKeyL_cons, h1]

theorem genOfKeyL_digits : ∀ l, (∀ c ∈ l, c.isDigit = true) → genOfKeyL l = none := by
  intro l
  induction l with
  | nil => intro _; rfl
  | cons c r ih =>
    intro h
    refine genOfKeyL_cons_none (ih fun x hx => h x (List.mem_cons_of_mem c hx)) ?_
    exact genMarkAt_not_underscore r
      (isDigit_ne (h c (List.mem_cons_self c r)) (by decide))

theorem genOfKeyL_append_no_underscore :
    ∀ l₁ l₂, (∀ c ∈ l₁, ¬(c = '_')) → genOfKeyL l₂ = none →
      genOfKeyL (l₁ ++ l₂) = none := by
  intro l₁
  induction l₁ with
  | nil => intro l₂ _ h2; exact h2
  | cons c r ih =>
    intro l₂ h1 h2
    refine genOfKeyL_cons_none (ih l₂ (fun x hx => h1 x (List.mem_cons_of_mem c hx)) h2) ?_
    exact genMarkAt_not_underscore _ (h1 c (List.mem_cons_self c r))

theorem genOfKeyL_append_some :
    ∀ l₁ l₂ g, genOfKeyL l₂ = some g → genOfKeyL (l₁ ++ l₂) = some g := by
  intro l₁
  induction l₁ with
  | nil => intro l₂ g h; exact h
  | cons c r ih =>
    intro l₂ g h
    exact genOfKeyL_cons_some (ih l₂ g h)

theorem takeWhile_dropWhile_append (p : Char → Bool) :
    ∀ l₁ (d : Char) (l₂ : List Char), (∀ c ∈ l₁, p c = true) → p d = false →
      (l₁ ++ d :: l₂).takeWhile p = l₁ ∧ (l₁ ++ d :: l₂).dropWhile p = d :: l₂ := by
  intro l₁
  induction l₁ with
  | nil =>
    intro d l₂ _ hd
    constructor
    · rw [List.nil_append, List.takeWhile_cons, hd]
      simp
    · rw [List.nil_append, List.dropWhile_cons, hd]
      simp
  | cons c r ih =>
    intro d l₂ h1 hd
    have hc : p c = true := h1 c (List.mem_cons_self c r)
    obtain ⟨iht, ihd⟩ := ih d l₂ (fun x hx => h1 x (List.mem_cons_of_mem c hx)) hd
    constructor
    · rw [List.cons_append, List.takeWhile_cons, hc]
      simp [iht]
    · rw [List.cons_append, List.dropWhile_cons, hc]
      simp [ihd]

theorem genMarkAt_ug (r : List Char) :
    genMarkAt ('_' :: 'g' :: r) =
      (if (r.takeWhile Char.isDigit).isEmpty then none
       else
         match r.dropWhile Char.isDigit with
         | '-' :: _ => some (decValue (r.takeWhile Char.isDigit))
         | _ => none) := rfl

theorem genMark_here (dsg tail : List Char) (h1 : ¬(dsg = []))
    (h2 : ∀ c ∈ dsg, c.isDigit = true) :
    genMarkAt ('_' :: 'g' :: (dsg ++ '-' :: tail)) = some (decValue dsg) := by
  obtain ⟨htake, hdrop⟩ := takeWhile_dropWhile_append Char.isDigit dsg '-' tail h2
    (by decide)
  rw [genMarkAt_ug, htake, hdrop]
  rw [show dsg.isEmpty = false from by
    cases dsg with
    | nil => exact absurd rfl h1
    | cons a r => rfl]
  rfl

theorem genOfKeyL_glue (X dsg tail : List Char) (h1 : ¬(dsg = []))
    (h2 : ∀ c ∈ dsg, c.isDigit = true) (htail : genOfKeyL ('-' :: tail) = none) :
    genOfKeyL (X ++ '_' :: 'g' :: (dsg ++ '-' :: tail)) = some (decValue dsg) := by
  apply genOfKeyL_append_some
  have hg : genOfKeyL ('g' :: (dsg ++ '-' :: tail)) = none := by
    refine genOfKeyL_cons_none ?_ (genMarkAt_not_underscore _ (by decide))
    exact genOfKeyL_append_no_underscore dsg ('-' :: tail)
      (fun c hc => isDigit_ne (h2 c hc) (by decide)) htail
  rw [genOfKeyL_cons, hg, genMark_here dsg tail h1 h2]

theorem tail_base_none (base : List Char) (hb : ∀ c ∈ base, c.isDigit = true) :
    genOfKeyL ('-' :: base) = none :=
  genOfKeyL_cons_none (genOfKeyL_digits base hb)
    (genMarkAt_not_underscore _ (by decide))

theorem tail_suffixed_none (base ds2 : List Char) (hb : ∀ c ∈ base, c.isDigit = true)
    (hb2 : ∀ c ∈ ds2, c.isDigit = true) :
    genOfKeyL ('-' :: (base ++ '_' :: ds2)) = none := by
  have hu : genOfKeyL ('_' :: ds2) = none := by
    refine genOfKeyL_cons_none (genOfKeyL_digits ds2 hb2) ?_
    cases ds2 with
    | nil => rfl
    | cons d r =>
      exact genMarkAt_underscore_not_g r (isDigit_ne (hb2 d (List.mem_cons_self d r))
        (by decide))
  refine genOfKeyL_cons_none ?_ (genMarkAt_not_underscore _ (by decide))
  exact genOfKeyL_append_no_underscore base ('_' :: ds2)
    (fun c hc => isDigit_ne (hb c hc) (by decide)) hu

/-- Every candidate identity probed for a record carries the record's
generation as the value of its last `_g<digits>-` marker. -/
theorem genOfKeyL_candId (st : ParseState) (g : Nat) (idx : List Char) (s : Nat)
    (hb : ∀ c ∈ stripTrailingLower idx, c.isDigit = true) :
    genOfKeyL (candId (canonicalId st g idx) s).data = some g := by
  have hdsg1 : ¬((natToDec g).data = []) := natToDecL_ne_nil (g + 1) g (Nat.succ_ne_zero g)
  have hdsg2 : ∀ c ∈ (natToDec g).data, c.isDigit = true := fun c hc =>
    mem_natToDecL_isDigit (g + 1) g c hc
  obtain ⟨X, hX⟩ : ∃ X : String, canonicalId st g idx =
      ((X ++ "_g") ++ natToDec g ++ "-" ++ ⟨stripTrailingLower idx⟩) := by
    unfold canonicalId
    split
    next pr heq => exact ⟨pr.2, rfl⟩
    next heq =>
      refine ⟨("root"), ?_⟩
      rw [show ("root_g" : String) = ("root") ++ ("_g") from by decide]
  have hdata : (canonicalId st g idx).data =
      X.data ++ '_' :: 'g' :: ((natToDec g).data ++ '-' :: stripTrailingLower idx) := by
    rw [hX]
    simp [strData_append, data_mk, List.append_assoc,
      show ("_g" : String).data = '_' :: 'g' :: [] from rfl,
      show ("-" : String).data = '-' :: [] from rfl]
  by_cases hs : s = 1
  · rw [show candId (canonicalId st g idx) s = canonicalId st g idx from by
      unfold candId; rw [if_pos hs]]
    rw [hdata]
    rw [genOfKeyL_glue X.data (natToDec g).data (stripTrailingLower idx) hdsg1 hdsg2
      (tail_base_none _ hb)]
    rw [decValue_natToDec]
  · rw [show candId (canonicalId st g idx) s =
      (canonicalId st g idx) ++ "_" ++ natToDec s from by unfold candId; rw [if_neg hs]]
    have hds2 : ∀ c ∈ (natToDec s).data, c.isDigit = true := fun c hc =>
      mem_natToDecL_isDigit (s + 1) s c hc
    have hdata2 : ((canonicalId st g idx) ++ "_" ++ natToDec s).data =
        X.data ++ '_' :: 'g' :: ((natToDec g).data ++
          '-' :: (stripTrailingLower idx ++ '_' :: (natToDec s).data)) := by
      simp [strData_append, hdata, List.append_assoc,
        show ("_" : String).data = '_' :: [] from rfl]
    rw [hdata2]
    rw [genOfKeyL_glue X.data (natToDec g).data
      (stripTrailingLower idx ++ '_' :: (natToDec s).data) hdsg1 hdsg2
      (tail_suffixed_none _ _ hb hds2)]
    rw [decValue_natToDec]

/-! ### Preservation of the structural invariant -/

theorem head?_mem {α : Type} {l : List α} {a : α} (h : l.head? = some a) : a ∈ l := by
  cases l with
  | nil => exact Option.noConfusion h
  | cons b r =>
    rw [List.head?_cons, Option.some.injEq] at h
    subst h
    exact List.mem_cons_self b r

theorem popStack_mem : ∀ (stack : List (Nat × String)) (g : Nat) (e : Nat × String),
    e ∈ popStack stack g → e ∈ stack := by
  intro stack
  induction stack with
  | nil => intro g e h; exact h
  | cons a r ih =>
    intro g e h
    obtain ⟨g', i⟩ := a
    show e ∈ (g', i) :: r
    rw [show popStack ((g', i) :: r) g =
      (if g ≤ g' then popStack r g else (g', i) :: r) from rfl] at h
    by_cases hg : g ≤ g'
    · rw [if_pos hg] at h
      exact List.mem_cons_of_mem _ (ih g e h)
    · rw [if_neg hg] at h
      exact h

theorem popStack_head_lt : ∀ (stack : List (Nat × String)) (g pg : Nat) (pid : String),
    (popStack stack g).head? = some (pg, pid) → pg < g := by
  intro stack
  induction stack with
  | nil => intro g pg pid h; exact Option.noConfusion h
  | cons a r ih =>
    intro g pg pid h
    obtain ⟨g', i⟩ := a
    rw [show popStack ((g', i) :: r) g =
      (if g ≤ g' then popStack r g else (g', i) :: r) from rfl] at h
    by_cases hg : g ≤ g'
    · rw [if_pos hg] at h
      exact ih g pg pid h
    · rw [if_neg hg] at h
      rw [List.head?_cons, Option.some.injEq] at h
      have : g' = pg := congrArg Prod.fst h
      omega

theorem mem_modifyAt (f : α → α) :
    ∀ (i : Nat) (l : List α) (a : α), a ∈ modifyAt f i l →
      a ∈ l ∨ ∃ a₀ ∈ l, a = f a₀ := by
  intro i
  induction i with
  | zero =>
    intro l a h
    cases l with
    | nil => exact Or.inl h
    | cons b r =>
      rcases List.mem_cons.mp h with rfl | h2
      · exact Or.inr ⟨b, List.mem_cons_self b r, rfl⟩
      · exact Or.inl (List.mem_cons_of_mem b h2)
  | succ i ih =>
    intro l a h
    cases l with
    | nil => exact Or.inl h
    | cons b r =>
      rcases List.mem_cons.mp h with rfl | h2
      · exact Or.inl (List.mem_cons_self a r)
      · rcases ih r a h2 with h3 | ⟨a₀, h4, h5⟩
        · exact Or.inl (List.mem_cons_of_mem b h3)
        · exact Or.inr ⟨a₀, List.mem_cons_of_mem b h4, h5⟩

theorem lookup_parentId_updatePerson (m : List (String × Person)) (i : String)
    (f : Person → Person) (hf : ∀ p, (f p).parentId = p.parentId) (k : String) :
    (lookupPerson (updatePerson m i f) k).map Person.parentId =
      (lookupPerson m k).map Person.parentId := by
  rw [lookupPerson_updatePerson]
  by_cases h : i = k
  · subst h
    rw [if_pos rfl]
    cases lookupPerson m i with
    | none => rfl
    | some q =>
      rw [Option.map_some', Option.map_some', Option.map_some']
      rw [hf q]
  · rw [if_neg h]

theorem lookup_gen_updatePerson (m : List (String × Person)) (i : String)
    (f : Person → Person) (hf : ∀ p, (f p).generation = p.generation)
    (pid : String) (t : Person) (ht : lookupPerson m pid = some t) :
    ∃ t', lookupPerson (updatePerson m i f) pid = some t' ∧
      t'.generation = t.generation := by
  rw [lookupPerson_updatePerson]
  by_cases h : i = pid
  · subst h
    rw [if_pos rfl, ht, Option.map_some']
    exact ⟨f t, rfl, hf t⟩
  · rw [if_neg h]
    exact ⟨t, ht, rfl⟩

/-- The person-map invariant survives any in-place person update that keeps
the generation and parent reference and whose new spouse lists carry only
empty or pre-existing children lists. -/
theorem PMapInv_updatePerson (m : List (String × Person)) (i : String)
    (f : Person → Person) (hInv : PMapInv m)
    (hf : ∀ p, (f p).generation = p.generation ∧ (f p).parentId = p.parentId ∧
      ∀ sp ∈ (f p).spouses, sp.childrenIds = [] ∨
        ∃ sp₀ ∈ p.spouses, sp.childrenIds = sp₀.childrenIds) :
    PMapInv (updatePerson m i f) := by
  obtain ⟨hJ, hC9, hC10⟩ := hInv
  have hpar := lookup_parentId_updatePerson m i f (fun p => (hf p).2.1)
  refine ⟨?_, ?_, ?_⟩
  · intro k p hk
    rw [lookupPerson_updatePerson] at hk
    by_cases h : i = k
    · subst h
      rw [if_pos rfl] at hk
      cases hl : lookupPerson m i with
      | none => rw [hl] at hk; exact Option.noConfusion hk
      | some q =>
        rw [hl, Option.map_some', Option.some.injEq] at hk
        subst hk
        rw [(hf q).1]
        exact hJ i q hl
    · rw [if_neg h] at hk
      exact hJ k p hk
  · intro k p hk sp hsp
    rw [lookupPerson_updatePerson] at hk
    by_cases h : i = k
    · subst h
      rw [if_pos rfl] at hk
      cases hl : lookupPerson m i with
      | none => rw [hl] at hk; exact Option.noConfusion hk
      | some q =>
        rw [hl, Option.map_some', Option.some.injEq] at hk
        subst hk
        rcases (hf q).2.2 sp hsp with hnil | ⟨sp₀, hsp₀, hchild⟩
        · rw [hnil]
          exact ⟨List.nodup_nil, fun cid hcid => absurd hcid (List.not_mem_nil cid)⟩
        · obtain ⟨hnd, hmem⟩ := hC9 i q hl sp₀ hsp₀
          refine ⟨hchild ▸ hnd, fun cid hcid => ?_⟩
          rw [hpar cid]
          exact hmem cid (hchild ▸ hcid)
    · rw [if_neg h] at hk
      obtain ⟨hnd, hmem⟩ := hC9 k p hk sp hsp
      exact ⟨hnd, fun cid hcid => by rw [hpar cid]; exact hmem cid hcid⟩
  · intro k p pid hk hpid
    rw [lookupPerson_updatePerson] at hk
    by_cases h : i = k
    · subst h
      rw [if_pos rfl] at hk
      cases hl : lookupPerson m i with
      | none => rw [hl] at hk; exact Option.noConfusion hk
      | some q =>
        rw [hl, Option.map_some', Option.some.injEq] at hk
        subst hk
        rw [(hf q).2.1] at hpid
        obtain ⟨t, ht, htg⟩ := hC10 i q pid hl hpid
        obtain ⟨t', ht', htg'⟩ := lookup_gen_updatePerson m i f (fun p => (hf p).1)
          pid t ht
        exact ⟨t', ht', by rw [htg', (hf q).1]; exact htg⟩
    · rw [if_neg h] at hk
      obtain ⟨t, ht, htg⟩ := hC10 k p pid hk hpid
      obtain ⟨t', ht', htg'⟩ := lookup_gen_updatePerson m i f (fun p => (hf p).1)
        pid t ht
      exact ⟨t', ht', by rw [htg']; exact htg⟩

/-- The full state invariant under the same kind of update. -/
theorem StateInv_of_update (st st' : ParseState) (i : String) (f : Person → Person)
    (hf : ∀ p, (f p).generation = p.generation ∧ (f p).parentId = p.parentId ∧
      ∀ sp ∈ (f p).spouses, sp.childrenIds = [] ∨
        ∃ sp₀ ∈ p.spouses, sp.childrenIds = sp₀.childrenIds)
    (h : StateInv st)
    (hmap : st'.personMap = updatePerson st.personMap i f)
    (hstk : st'.parentStack = st.parentStack) : StateInv st' := by
  obtain ⟨hP, hS⟩ := h
  constructor
  · rw [hmap]
    exact PMapInv_updatePerson st.personMap i f hP hf
  · intro g' i' hmem
    rw [hstk] at hmem
    obtain ⟨q, hq, hgen⟩ := hS g' i' hmem
    rw [hmap]
    obtain ⟨q', hq', hgen'⟩ := lookup_gen_updatePerson st.personMap i f
      (fun p => (hf p).1) i' q hq
    exact ⟨q', hq', by rw [hgen']; exact hgen⟩

/-- The person-map invariant survives inserting a fresh person whose identity
encodes its generation, whose spouse list is empty, and whose parent (when
present) exists with a strictly smaller generation. -/
theorem PMapInv_insert (m : List (String × Person)) (fid : String) (np : Person)
    (hInv : PMapInv m) (hfree : lookupPerson m fid = none)
    (hgenkey : genOfKeyL fid.data = some np.generation)
    (hsp : np.spouses = [])
    (hpar : ∀ pid, np.parentId = some pid →
      ∃ q, lookupPerson m pid = some q ∧ q.generation < np.generation) :
    PMapInv (setPerson m fid np) := by
  obtain ⟨hJ, hC9, hC10⟩ := hInv
  have hlook : ∀ k, lookupPerson (setPerson m fid np) k =
      if fid = k then some np else lookupPerson m k := fun k =>
    lookupPerson_setPerson m fid k np
  refine ⟨?_, ?_, ?_⟩
  · intro k p hk
    rw [hlook] at hk
    by_cases h : fid = k
    · subst h
      rw [if_pos rfl, Option.some.injEq] at hk
      subst hk
      exact hgenkey
    · rw [if_neg h] at hk
      exact hJ k p hk
  · intro k p hk sp hsp2
    rw [hlook] at hk
    by_cases h : fid = k
    · subst h
      rw [if_pos rfl, Option.some.injEq] at hk
      subst hk
      rw [hsp] at hsp2
      exact absurd hsp2 (List.not_mem_nil sp)
    · rw [if_neg h] at hk
      obtain ⟨hnd, hmem⟩ := hC9 k p hk sp hsp2
      refine ⟨hnd, fun cid hcid => ?_⟩
      have hold := hmem cid hcid
      have hcidlook : ∃ q', lookupPerson m cid = some q' := by
        cases hc : lookupPerson m cid with
        | none => rw [hc] at hold; exact Option.noConfusion hold
        | some q' => exact ⟨q', rfl⟩
      obtain ⟨q', hq'⟩ := hcidlook
      have hne : ¬(fid = cid) := by
        intro he
        rw [← he, hfree] at hq'
        exact Option.noConfusion hq'
      rw [hlook, if_neg hne]
      exact hold
  · intro k p pid hk hpid
    rw [hlook] at hk
    by_cases h : fid = k
    · subst h
      rw [if_pos rfl, Option.some.injEq] at hk
      subst hk
      obtain ⟨q, hq, hqg⟩ := hpar pid hpid
      have hne : ¬(fid = pid) := by
        intro he
        rw [← he, hfree] at hq
        exact Option.noConfusion hq
      rw [hlook, if_neg hne]
      exact ⟨q, hq, hqg⟩
    · rw [if_neg h] at hk
      obtain ⟨t, ht, htg⟩ := hC10 k p pid hk hpid
      have hne : ¬(fid = pid) := by
        intro he
        rw [← he, hfree] at ht
        exact Option.noConfusion ht
      rw [hlook, if_neg hne]
      exact ⟨t, ht, htg⟩

/-- The person-map invariant survives attaching a child identity to the last
spouse of its parent, provided the child is present and refers back to that
parent. -/
theorem PMapInv_attachChild (m : List (String × Person)) (pid fid : String)
    (hInv : PMapInv m) (np : Person) (hfid : lookupPerson m fid = some np)
    (hnp : np.parentId = some pid) :
    PMapInv (attachChild m pid fid) := by
  unfold attachChild
  split
  case h_2 => exact hInv
  case h_1 parent hl =>
    by_cases hemp : parent.spouses.isEmpty = true
    · rw [if_pos hemp]
      exact hInv
    · rw [if_neg hemp]
      obtain ⟨hJ, hC9, hC10⟩ := hInv
      set f : Person → Person := fun p =>
        { p with spouses := modifyLast (fun sp => if fid ∈ sp.childrenIds then sp
            else { sp with childrenIds := sp.childrenIds ++ [fid] }) p.spouses } with hfdef
      have hfgen : ∀ p, (f p).generation = p.generation := fun p => rfl
      have hfpar : ∀ p, (f p).parentId = p.parentId := fun p => rfl
      have hparproj := lookup_parentId_updatePerson m pid f hfpar
      refine ⟨?_, ?_, ?_⟩
      · intro k p hk
        rw [lookupPerson_updatePerson] at hk
        by_cases h : pid = k
        · subst h
          rw [if_pos rfl, hl, Option.map_some', Option.some.injEq] at hk
          subst hk
          exact hJ pid parent hl
        · rw [if_neg h] at hk
          exact hJ k p hk
      · intro k p hk sp hsp2
        rw [lookupPerson_updatePerson] at hk
        by_cases h : pid = k
        · subst h
          rw [if_pos rfl, hl, Option.map_some', Option.some.injEq] at hk
          subst hk
          rcases mem_modifyLast _ parent.spouses sp hsp2 with hold | ⟨sp₀, hlast, heq⟩
          · obtain ⟨hnd, hmem⟩ := hC9 pid parent hl sp hold
            exact ⟨hnd, fun cid hcid => by rw [hparproj cid]; exact hmem cid hcid⟩
          · have hmem0 : sp₀ ∈ parent.spouses := by
              obtain ⟨hnn, heq2⟩ := List.mem_getLast?_eq_getLast (Option.mem_def.mpr hlast)
              rw [heq2]
              exact List.getLast_mem hnn
            obtain ⟨hnd, hmem⟩ := hC9 pid parent hl sp₀ hmem0
            by_cases hin : fid ∈ sp₀.childrenIds
            · rw [heq, if_pos hin]
              exact ⟨hnd, fun cid hcid => by rw [hparproj cid]; exact hmem cid hcid⟩
            · rw [heq, if_neg hin]
              constructor
              · show (sp₀.childrenIds ++ [fid]).Nodup
                rw [List.nodup_append]
                refine ⟨hnd, List.nodup_singleton fid, ?_⟩
                intro a ha hafid
                rcases List.mem_singleton.mp hafid with rfl
                exact hin ha
              · intro cid hcid
                rw [hparproj cid]
                rcases List.mem_append.mp hcid with hcid1 | hcid2
                · exact hmem cid hcid1
                · rcases List.mem_singleton.mp hcid2 with rfl
                  rw [hfid, Option.map_some', hnp]
        · rw [if_neg h] at hk
          obtain ⟨hnd, hmem⟩ := hC9 k p hk sp hsp2
          exact ⟨hnd, fun cid hcid => by rw [hparproj cid]; exact hmem cid hcid⟩
      · intro k p pid2 hk hpid2
        rw [lookupPerson_updatePerson] at hk
        by_cases h : pid = k
        · subst h
          rw [if_pos rfl, hl, Option.map_some', Option.some.injEq] at hk
          subst hk
          rw [hfpar parent] at hpid2
          obtain ⟨t, ht, htg⟩ := hC10 pid parent pid2 hl hpid2
          obtain ⟨t', ht', htg'⟩ := lookup_gen_updatePerson m pid f hfgen pid2 t ht
          exact ⟨t', ht', by rw [htg', hfgen parent]; exact htg⟩
        · rw [if_neg h] at hk
          obtain ⟨t, ht, htg⟩ := hC10 k p pid2 hk hpid2
          obtain ⟨t', ht', htg'⟩ := lookup_gen_updatePerson m pid f hfgen pid2 t ht
          exact ⟨t', ht', by rw [htg']; exact htg⟩

theorem isLowerAZ_false_of_isDigit {c : Char} (h : c.isDigit = true) :
    isLowerAZ c = false := by
  unfold Char.isDigit at h
  rw [Bool.and_eq_true] at h
  have h57 : c.val ≤ 57 := of_decide_eq_true h.2
  have hna : ¬('a' ≤ c) := by
    intro hle
    have h97 : (97 : UInt32) ≤ c.val := hle
    have : (97 : UInt32) ≤ 57 := UInt32.le_trans h97 h57
    exact absurd this (by decide)
  unfold isLowerAZ
  rw [decide_eq_false hna, Bool.false_and]

theorem stripTrailingLower_digits (l : List Char) (hne : ¬(l = []))
    (hd : ∀ x ∈ l, x.isDigit = true) : stripTrailingLower l = l := by
  unfold stripTrailingLower
  rw [List.getLast?_eq_getLast_of_ne_nil hne]
  show (if isLowerAZ (l.getLast hne) = true then l.dropLast else l) = l
  rw [isLowerAZ_false_of_isDigit (hd _ (List.getLast_mem hne))]
  simp

theorem stripTrailingLower_concat (l : List Char) (c : Char) (hc : isLowerAZ c = true) :
    stripTrailingLower (l ++ [c]) = l := by
  unfold stripTrailingLower
  rw [List.getLast?_concat]
  show (if isLowerAZ c = true then (l ++ [c]).dropLast else l ++ [c]) = l
  rw [hc]
  simp

/-- The sibling index captured by the new-person matcher consists of digits
plus at most one trailing lowercase letter, so its letter-stripped base is a
non-empty all-digit token. -/
theorem matchGeneration_shape (cl : List Char) (g : Nat) (idx rest : List Char)
    (h : matchGeneration cl = some (g, idx, rest)) :
    ¬(stripTrailingLower idx = []) ∧
      ∀ c ∈ stripTrailingLower idx, c.isDigit = true := by
  unfold matchGeneration at h
  split at h
  case h_2 => exact Option.noConfusion h
  case h_1 r0 =>
    by_cases hg1 : (r0.takeWhile Char.isDigit).isEmpty
    · rw [if_pos hg1] at h
      exact Option.noConfusion h
    · rw [if_neg hg1] at h
      split at h
      next r2 heq1 =>
        set r3 := r2.dropWhile isJsSpace with hr3
        set ixd := r3.takeWhile Char.isDigit with hixd
        have hixdd : ∀ x ∈ ixd, x.isDigit = true := fun x hx =>
          List.mem_takeWhile_imp hx
        by_cases hg2 : ixd.isEmpty
        · rw [if_pos hg2] at h
          exact Option.noConfusion h
        · rw [if_neg hg2] at h
          have hixdne : ¬(ixd = []) := by
            intro he
            rw [he] at hg2
            exact hg2 rfl
          split at h
          next c r5 heq2 =>
            by_cases hlow : isLowerAZ c
            · rw [if_pos hlow] at h
              split at h
              next rest2 heq =>
                rw [Option.some.injEq, Prod.mk.injEq] at h
                obtain ⟨-, h2⟩ := h
                rw [Prod.mk.injEq] at h2
                obtain ⟨hidx, -⟩ := h2
                rw [← hidx, stripTrailingLower_concat ixd c hlow]
                exact ⟨hixdne, hixdd⟩
              next heq => exact Option.noConfusion h
            · rw [if_neg hlow] at h
              split at h
              next rest2 heq =>
                rw [Option.some.injEq, Prod.mk.injEq] at h
                obtain ⟨-, h2⟩ := h
                rw [Prod.mk.injEq] at h2
                obtain ⟨hidx, -⟩ := h2
                rw [← hidx, stripTrailingLower_digits ixd hixdne hixdd]
                exact ⟨hixdne, hixdd⟩
              next heq => exact Option.noConfusion h
          next => exact Option.noConfusion h
      next => exact Option.noConfusion h

/-- A spouse line preserves the full parse-state invariant. -/
theorem processSpouseLine_StateInv (st : ParseState) (rest : List Char)
    (h : StateInv st) : StateInv (processSpouseLine st rest) := by
  unfold processSpouseLine
  dsimp only
  split
  next => exact h
  next fid heq =>
    refine StateInv_of_update st _ fid _ ?_ h rfl rfl
    intro p
    refine ⟨rfl, rfl, ?_⟩
    intro sp hsp
    rcases List.mem_append.mp hsp with h1 | h2
    · exact Or.inr ⟨sp, h1, rfl⟩
    · rcases List.mem_singleton.mp h2 with rfl
      exact Or.inl rfl

/-- A metadata line preserves the full parse-state invariant. -/
theorem applyMeta_StateInv (st : ParseState) (l : List Char)
    (h : StateInv st) : StateInv (applyMeta st l) := by
  unfold applyMeta
  split
  next => exact h
  next fid heq =>
    split
    next v heq1 =>
      refine StateInv_of_update st _ fid _ ?_ h rfl rfl
      intro p
      exact ⟨rfl, rfl, fun sp hsp => Or.inr ⟨sp, hsp, rfl⟩⟩
    next heq1 =>
      split
      next v heq2 =>
        refine StateInv_of_update st _ fid _ ?_ h rfl rfl
        intro p
        exact ⟨rfl, rfl, fun sp hsp => Or.inr ⟨sp, hsp, rfl⟩⟩
      next heq2 =>
        split
        next v heq3 =>
          split
          next ref heq4 =>
            refine StateInv_of_update st _ ref.1 _ ?_ h rfl rfl
            intro p
            refine ⟨rfl, rfl, ?_⟩
            intro sp hsp
            rcases mem_modifyAt _ ref.2 p.spouses sp hsp with h1 | ⟨sp₀, h2, h3⟩
            · exact Or.inr ⟨sp, h1, rfl⟩
            · exact Or.inr ⟨sp₀, h2, by rw [h3]⟩
          next heq4 =>
            refine StateInv_of_update st _ fid _ ?_ h rfl rfl
            intro p
            exact ⟨rfl, rfl, fun sp hsp => Or.inr ⟨sp, hsp, rfl⟩⟩
        next heq3 =>
          split
          next v heq4 =>
            refine StateInv_of_update st _ fid _ ?_ h rfl rfl
            intro p
            exact ⟨rfl, rfl, fun sp hsp => Or.inr ⟨sp, hsp, rfl⟩⟩
          next heq4 =>
            split
            next v heq5 =>
              refine StateInv_of_update st _ fid _ ?_ h rfl rfl
              intro p
              exact ⟨rfl, rfl, fun sp hsp => Or.inr ⟨sp, hsp, rfl⟩⟩
            next heq5 =>
              split
              next v heq6 =>
                split
                next ref heq7 =>
                  refine StateInv_of_update st _ ref.1 _ ?_ h rfl rfl
                  intro p
                  refine ⟨rfl, rfl, ?_⟩
                  intro sp hsp
                  rcases mem_modifyAt _ ref.2 p.spouses sp hsp with h1 | ⟨sp₀, h2, h3⟩
                  · exact Or.inr ⟨sp, h1, rfl⟩
                  · exact Or.inr ⟨sp₀, h2, by rw [h3]⟩
                next heq7 => exact h
              next heq6 =>
                split
                next v heq7 =>
                  split
                  next ref heq8 =>
                    refine StateInv_of_update st _ ref.1 _ ?_ h rfl rfl
                    intro p
                    refine ⟨rfl, rfl, ?_⟩
                    intro sp hsp
                    rcases mem_modifyAt _ ref.2 p.spouses sp hsp with h1 | ⟨sp₀, h2, h3⟩
                    · exact Or.inr ⟨sp, h1, rfl⟩
                    · exact Or.inr ⟨sp₀, h2, by rw [h3]⟩
                  next heq8 => exact h
                next heq7 => exact h

/-- The no-match branch of a person record, as a state equation. -/
theorem processPersonRecord_none_eq (st : ParseState) (g : Nat) (idx rest : List Char)
    (h : probeAux st.personMap (canonicalId st g idx) ⟨extractNameL rest⟩
      (st.personMap.length + 1) 1 = none) :
    processPersonRecord st g idx rest = st := by
  unfold processPersonRecord
  dsimp only
  rw [h]

/-- Attaching a child never disturbs the generation stored at any key
(forward direction: every pre-existing person survives unchanged in
generation). -/
theorem attachChild_lookup_forward (m : List (String × Person)) (pid fid : String) :
    ∀ k q, lookupPerson m k = some q →
      ∃ q', lookupPerson (attachChild m pid fid) k = some q' ∧
        q'.generation = q.generation := by
  intro k q hq
  unfold attachChild
  split
  next parent hl =>
    by_cases he : parent.spouses.isEmpty = true
    · rw [if_pos he]
      exact ⟨q, hq, rfl⟩
    · rw [if_neg he]
      exact lookup_gen_updatePerson m pid
        (fun p => { p with spouses := modifyLast (fun sp => if fid ∈ sp.childrenIds then sp else { sp with childrenIds := sp.childrenIds ++ [fid] }) p.spouses })
        (fun p => rfl) k q hq
  next hl => exact ⟨q, hq, rfl⟩

/-- Attaching a child never introduces a person or changes a generation
(backward direction). -/
theorem attachChild_lookup_backward (m : List (String × Person)) (pid fid : String) :
    GenPres m (attachChild m pid fid) := by
  intro k p hk
  unfold attachChild at hk
  split at hk
  next parent hl =>
    by_cases he : parent.spouses.isEmpty = true
    · rw [if_pos he] at hk
      exact ⟨p, hk, rfl⟩
    · rw [if_neg he] at hk
      rw [lookupPerson_updatePerson] at hk
      by_cases hkk : pid = k
      · subst hkk
        rw [if_pos rfl, hl, Option.map_some', Option.some.injEq] at hk
        subst hk
        exact ⟨parent, hl, rfl⟩
      · rw [if_neg hkk] at hk
        exact ⟨p, hk, rfl⟩
  next hl => exact ⟨p, hk, rfl⟩

/-- A new-person record whose base sibling index is all digits preserves the
full parse-state invariant. -/
theorem processPersonRecord_StateInv (st : ParseState) (g : Nat)
    (idx rest : List Char)
    (hidx : ∀ c ∈ stripTrailingLower idx, c.isDigit = true)
    (h : StateInv st) : StateInv (processPersonRecord st g idx rest) := by
  obtain ⟨hP, hS⟩ := h
  cases hp : probeAux st.personMap (canonicalId st g idx) ⟨extractNameL rest⟩
      (st.personMap.length + 1) 1 with
  | none =>
    rw [processPersonRecord_none_eq st g idx rest hp]
    exact ⟨hP, hS⟩
  | some r =>
    obtain ⟨fid, found⟩ := r
    cases found with
    | true =>
      rw [processPersonRecord_found_eq st g idx rest fid hp]
      refine ⟨hP, ?_⟩
      intro g' i' hmem
      rcases List.mem_cons.mp hmem with heq | hmem2
      · have hg2 : g' = g := congrArg Prod.fst heq
        have hi2 : i' = fid := congrArg Prod.snd heq
        rw [hg2, hi2]
        obtain ⟨s', q, hs, hfid_eq, hq, hn⟩ :=
          probeAux_found st.personMap (canonicalId st g idx) ⟨extractNameL rest⟩
            (st.personMap.length + 1) 1 fid hp
        refine ⟨q, hq, ?_⟩
        have h1 := hP.1 fid q hq
        rw [hfid_eq, genOfKeyL_candId st g idx s' hidx] at h1
        exact (Option.some.inj h1).symm
      · exact hS g' i' (popStack_mem st.parentStack g (g', i') hmem2)
    | false =>
      obtain ⟨s', hs, hfid_eq, hfree⟩ :=
        probeAux_fresh st.personMap (canonicalId st g idx) ⟨extractNameL rest⟩
          (st.personMap.length + 1) 1 fid hp
      have hgenkey : genOfKeyL fid.data = some g := by
        rw [hfid_eq]
        exact genOfKeyL_candId st g idx s' hidx
      cases hh : (popStack st.parentStack g).head? with
      | none =>
        have hsteq : processPersonRecord st g idx rest =
            { personMap := setPerson st.personMap fid (newPersonOf fid g idx rest none),
              currentPersonId := some fid, currentSpouseRef := none,
              parentStack := (g, fid) :: popStack st.parentStack g,
              rootId := if g = 1 ∧ st.rootId = "" then fid else st.rootId } := by
          rw [processPersonRecord_fresh_eq st g idx rest fid hp, hh]
          rfl
        rw [hsteq]
        constructor
        · show PMapInv (setPerson st.personMap fid (newPersonOf fid g idx rest none))
          exact PMapInv_insert st.personMap fid (newPersonOf fid g idx rest none)
            hP hfree hgenkey rfl (fun pid hpid => Option.noConfusion hpid)
        · intro g' i' hmem
          show ∃ q, lookupPerson
            (setPerson st.personMap fid (newPersonOf fid g idx rest none)) i' =
              some q ∧ q.generation = g'
          rcases List.mem_cons.mp hmem with heq | hmem2
          · have hg2 : g' = g := congrArg Prod.fst heq
            have hi2 : i' = fid := congrArg Prod.snd heq
            rw [hg2, hi2]
            refine ⟨newPersonOf fid g idx rest none, ?_, rfl⟩
            rw [lookupPerson_setPerson, if_pos rfl]
          · obtain ⟨q, hq, hqg⟩ := hS g' i' (popStack_mem st.parentStack g (g', i') hmem2)
            have hne : ¬(fid = i') := by
              intro he
              rw [← he, hfree] at hq
              exact Option.noConfusion hq
            refine ⟨q, ?_, hqg⟩
            rw [lookupPerson_setPerson, if_neg hne]
            exact hq
      | some pr =>
        obtain ⟨pg, pid⟩ := pr
        have hpg_lt : pg < g := popStack_head_lt st.parentStack g pg pid hh
        obtain ⟨parent, hparent, hpgen⟩ :=
          hS pg pid (popStack_mem st.parentStack g (pg, pid) (head?_mem hh))
        have hsteq : processPersonRecord st g idx rest =
            { personMap := attachChild
                (setPerson st.personMap fid (newPersonOf fid g idx rest (some pid)))
                pid fid,
              currentPersonId := some fid, currentSpouseRef := none,
              parentStack := (g, fid) :: popStack st.parentStack g,
              rootId := if g = 1 ∧ st.rootId = "" then fid else st.rootId } := by
          rw [processPersonRecord_fresh_eq st g idx rest fid hp, hh]
          rfl
        have hm1Inv : PMapInv
            (setPerson st.personMap fid (newPersonOf fid g idx rest (some pid))) := by
          refine PMapInv_insert st.personMap fid (newPersonOf fid g idx rest (some pid))
            hP hfree hgenkey rfl ?_
          intro pid' hpid'
          have hpp : pid = pid' := Option.some.inj hpid'
          subst hpp
          refine ⟨parent, hparent, ?_⟩
          show parent.generation < g
          rw [hpgen]
          exact hpg_lt
        have hlookfid : lookupPerson
            (setPerson st.personMap fid (newPersonOf fid g idx rest (some pid))) fid =
              some (newPersonOf fid g idx rest (some pid)) := by
          rw [lookupPerson_setPerson, if_pos rfl]
        rw [hsteq]
        constructor
        · show PMapInv (attachChild
            (setPerson st.personMap fid (newPersonOf fid g idx rest (some pid))) pid fid)
          exact PMapInv_attachChild _ pid fid hm1Inv
            (newPersonOf fid g idx rest (some pid)) hlookfid rfl
        · intro g' i' hmem
          show ∃ q, lookupPerson (attachChild
            (setPerson st.personMap fid (newPersonOf fid g idx rest (some pid))) pid fid)
              i' = some q ∧ q.generation = g'
          rcases List.mem_cons.mp hmem with heq | hmem2
          · have hg2 : g' = g := congrArg Prod.fst heq
            have hi2 : i' = fid := congrArg Prod.snd heq
            rw [hg2, hi2]
            obtain ⟨q', hq', hq'g⟩ := attachChild_lookup_forward _ pid fid fid
              (newPersonOf fid g idx rest (some pid)) hlookfid
            exact ⟨q', hq', by rw [hq'g]; rfl⟩
          · obtain ⟨q, hq, hqg⟩ := hS g' i' (popStack_mem st.parentStack g (g', i') hmem2)
            have hne : ¬(fid = i') := by
              intro he
              rw [← he, hfree] at hq
              exact Option.noConfusion hq
            have hq1 : lookupPerson
                (setPerson st.personMap fid (newPersonOf fid g idx rest (some pid))) i' =
                  some q := by
              rw [lookupPerson_setPerson, if_neg hne]
              exact hq
            obtain ⟨q', hq', hq'g⟩ := attachChild_lookup_forward _ pid fid i' q hq1
            refine ⟨q', hq', ?_⟩
            rw [hq'g]
            exact hqg

/-- Processing any raw line preserves the full parse-state invariant. -/
theorem processLine_StateInv (st : ParseState) (raw : List Char)
    (h : StateInv st) : StateInv (processLine st raw) := by
  unfold processLine
  dsimp only
  by_cases hskip : ((normalizeLine raw).isEmpty ||
      hasSubstr descendantChartTag (normalizeLine raw)) = true
  · rw [if_pos hskip]
    exact h
  · rw [if_neg hskip]
    split
    next g idx rest heq =>
      exact processPersonRecord_StateInv st g idx rest
        (matchGeneration_shape (normalizeLine raw) g idx rest heq).2 h
    next heq =>
      cases hms : matchSpouse (normalizeLine raw) with
      | some rest =>
        cases hcp : st.currentPersonId with
        | some fid => exact processSpouseLine_StateInv st rest h
        | none => exact applyMeta_StateInv st (normalizeLine raw) h
      | none => exact applyMeta_StateInv st (normalizeLine raw) h

/-- The initial state satisfies the invariant. -/
theorem StateInv_init : StateInv initState := by
  constructor
  · exact ⟨fun k p hk => Option.noConfusion hk, fun k p hk => Option.noConfusion hk,
      fun k p pid hk hpid => Option.noConfusion hk⟩
  · intro g i hmem
    exact absurd hmem (List.not_mem_nil (g, i))

/-- The invariant holds after folding the parser over any line list from any
invariant-satisfying start state. -/
theorem foldl_StateInv : ∀ (lines : List (List Char)) (st : ParseState),
    StateInv st → StateInv (lines.foldl processLine st) := by
  intro lines
  induction lines with
  | nil => intro st h; exact h
  | cons l ls ih =>
    intro st h
    rw [List.foldl_cons]
    exact ih (processLine st l) (processLine_StateInv st l h)

/-- Claim C9: in the `FamilyData` returned for any input, every identity
occurring in any spouse's `childrenIds` list is a key of `allPersons`, the
referenced child's `parentId` equals the identity of the person owning that
spouse, and no `childrenIds` list contains a duplicate identity. -/
theorem children_lists_wellformed (text : String) (k : String) (p : Person)
    (hk : lookupPerson (parseFamilyTree text).allPersons k = some p) :
    ∀ sp ∈ p.spouses, sp.childrenIds.Nodup ∧
      ∀ cid ∈ sp.childrenIds, ∃ c,
        lookupPerson (parseFamilyTree text).allPersons cid = some c ∧
          c.parentId = some k := by
  have hb : (parseFamilyTree text).allPersons =
      ((splitLines text.data).foldl processLine initState).personMap := rfl
  rw [hb] at hk ⊢
  have hInv := foldl_StateInv (splitLines text.data) initState StateInv_init
  intro sp hsp
  obtain ⟨hnd, hmem⟩ := hInv.1.2.1 k p hk sp hsp
  refine ⟨hnd, fun cid hcid => ?_⟩
  have h1 := hmem cid hcid
  cases hc : lookupPerson ((splitLines text.data).foldl processLine initState).personMap
      cid with
  | none =>
    rw [hc] at h1
    exact Option.noConfusion h1
  | some c =>
    rw [hc, Option.map_some', Option.some.injEq] at h1
    exact ⟨c, rfl, h1⟩

/-- Witness for the C9 theorem at a concrete input: Ann's spouse Carol holds
the child `root_g1-1_g2-1` (Bob), whose parent reference points back at Ann's
identity `root_g1-1`, in a duplicate-free list. -/
theorem children_lists_wellformed_witness :
    ((((lookupPerson (parseFamilyTree ("(1) 1 Ann\n& Carol\n(2) 1 Bob")).allPersons ("root_g1-1")).getD (newPersonOf ("") 0 [] [] none)).spouses.getD 0 ({ name := ("x") } : Spouse)).childrenIds).Nodup ∧
      ∃ c, lookupPerson (parseFamilyTree ("(1) 1 Ann\n& Carol\n(2) 1 Bob")).allPersons ("root_g1-1_g2-1") = some c ∧ c.parentId = some ("root_g1-1") := by
  have h := children_lists_wellformed ("(1) 1 Ann\n& Carol\n(2) 1 Bob") ("root_g1-1")
    ((lookupPerson (parseFamilyTree ("(1) 1 Ann\n& Carol\n(2) 1 Bob")).allPersons ("root_g1-1")).getD (newPersonOf ("") 0 [] [] none))
    (by decide)
    ((((lookupPerson (parseFamilyTree ("(1) 1 Ann\n& Carol\n(2) 1 Bob")).allPersons ("root_g1-1")).getD (newPersonOf ("") 0 [] [] none)).spouses.getD 0 ({ name := ("x") } : Spouse)))
    (by decide)
  exact ⟨h.1, h.2 ("root_g1-1_g2-1") (by decide)⟩

/-- Claim C10: in the `FamilyData` returned for any input, every person whose
`parentId` is set refers to an existing key of `allPersons` whose person has a
strictly smaller generation; consequently the parent-reference relation is
acyclic — no chain of parent references returns to its starting person. -/
theorem parent_references_wellformed (text : String) :
    (∀ k p pid, lookupPerson (parseFamilyTree text).allPersons k = some p →
      p.parentId = some pid →
      ∃ q, lookupPerson (parseFamilyTree text).allPersons pid = some q ∧
        q.generation < p.generation) ∧
    ∀ a, ¬ Relation.TransGen (ParentRel (parseFamilyTree text)) a a := by
  have hInv := foldl_StateInv (splitLines text.data) initState StateInv_init
  have hC10 : ∀ k p pid, lookupPerson (parseFamilyTree text).allPersons k = some p →
      p.parentId = some pid →
      ∃ q, lookupPerson (parseFamilyTree text).allPersons pid = some q ∧
        q.generation < p.generation := hInv.1.2.2
  refine ⟨hC10, ?_⟩
  have hstep : ∀ a b, Relation.TransGen (ParentRel (parseFamilyTree text)) a b →
      ∃ pa pb, lookupPerson (parseFamilyTree text).allPersons a = some pa ∧
        lookupPerson (parseFamilyTree text).allPersons b = some pb ∧
        pb.generation < pa.generation := by
    intro a b hab
    induction hab with
    | single hr =>
      obtain ⟨p, hp, hpid⟩ := hr
      obtain ⟨q, hq, hlt⟩ := hC10 _ p _ hp hpid
      exact ⟨p, q, hp, hq, hlt⟩
    | tail hab2 hbc ih =>
      obtain ⟨pa, pb, ha, hb, hlt⟩ := ih
      obtain ⟨pb', hb', hpid⟩ := hbc
      have hbb : pb' = pb := by
        rw [hb] at hb'
        exact (Option.some.inj hb').symm
      obtain ⟨q, hq, hlt2⟩ := hC10 _ pb' _ hb' hpid
      refine ⟨pa, q, ha, hq, ?_⟩
      rw [hbb] at hlt2
      omega
  intro a hcon
  obtain ⟨pa, pb, ha, hb, hlt⟩ := hstep a a hcon
  rw [ha, Option.some.injEq] at hb
  rw [hb] at hlt
  exact lt_irrefl _ hlt

/-- Witness for the C10 theorem at a concrete input: Bob's parent reference
names Ann, an existing person of smaller generation, and the parent relation
admits no cycle through Ann's identity. -/
theorem parent_references_wellformed_witness :
    (∃ q, lookupPerson (parseFamilyTree ("(1) 1 Ann\n(2) 1 Bob")).allPersons ("root_g1-1") = some q ∧
      q.generation < ((lookupPerson (parseFamilyTree ("(1) 1 Ann\n(2) 1 Bob")).allPersons ("root_g1-1_g2-1")).getD (newPersonOf ("") 0 [] [] none)).generation) ∧
    ¬ Relation.TransGen (ParentRel (parseFamilyTree ("(1) 1 Ann\n(2) 1 Bob")))
      ("root_g1-1") ("root_g1-1") :=
  ⟨(parent_references_wellformed ("(1) 1 Ann\n(2) 1 Bob")).1 ("root_g1-1_g2-1")
      ((lookupPerson (parseFamilyTree ("(1) 1 Ann\n(2) 1 Bob")).allPersons ("root_g1-1_g2-1")).getD (newPersonOf ("") 0 [] [] none))
      ("root_g1-1") (by decide) (by decide),
    (parent_references_wellformed ("(1) 1 Ann\n(2) 1 Bob")).2 ("root_g1-1")⟩

/-! ### The root identity (claim C2) -/

/-- A generation-preserving in-place update leaves every stored generation
reachable in the original map. -/
theorem updatePerson_GenPres (m : List (String × Person)) (i : String)
    (f : Person → Person) (hf : ∀ p, (f p).generation = p.generation) :
    GenPres m (updatePerson m i f) := by
  intro k p hk
  rw [lookupPerson_updatePerson] at hk
  by_cases h : i = k
  · subst h
    rw [if_pos rfl] at hk
    cases hq : lookupPerson m i with
    | none =>
      rw [hq, Option.map_none'] at hk
      exact Option.noConfusion hk
    | some q =>
      rw [hq, Option.map_some', Option.some.injEq] at hk
      refine ⟨q, rfl, ?_⟩
      rw [← hk]
      exact hf q
  · rw [if_neg h] at hk
    exact ⟨p, hk, rfl⟩

/-- A spouse line never touches the root identity or any generation. -/
theorem processSpouseLine_frame (st : ParseState) (rest : List Char) :
    (processSpouseLine st rest).rootId = st.rootId ∧
      GenPres st.personMap (processSpouseLine st rest).personMap := by
  unfold processSpouseLine
  dsimp only
  split
  next => exact ⟨rfl, fun k p hk => ⟨p, hk, rfl⟩⟩
  next fid heq =>
    exact ⟨rfl, updatePerson_GenPres st.personMap fid _ (fun p => rfl)⟩

/-- A metadata line never touches the root identity or any generation. -/
theorem applyMeta_frame (st : ParseState) (l : List Char) :
    (applyMeta st l).rootId = st.rootId ∧
      GenPres st.personMap (applyMeta st l).personMap := by
  unfold applyMeta
  split
  next => exact ⟨rfl, fun k p hk => ⟨p, hk, rfl⟩⟩
  next fid heq =>
    split
    next v heq1 => exact ⟨rfl, updatePerson_GenPres st.personMap fid _ (fun p => rfl)⟩
    next heq1 =>
      split
      next v heq2 => exact ⟨rfl, updatePerson_GenPres st.personMap fid _ (fun p => rfl)⟩
      next heq2 =>
        split
        next v heq3 =>
          split
          next ref heq4 =>
            exact ⟨rfl, updatePerson_GenPres st.personMap ref.1 _ (fun p => rfl)⟩
          next heq4 =>
            exact ⟨rfl, updatePerson_GenPres st.personMap fid _ (fun p => rfl)⟩
        next heq3 =>
          split
          next v heq4 =>
            exact ⟨rfl, updatePerson_GenPres st.personMap fid _ (fun p => rfl)⟩
          next heq4 =>
            split
            next v heq5 =>
              exact ⟨rfl, updatePerson_GenPres st.personMap fid _ (fun p => rfl)⟩
            next heq5 =>
              split
              next v heq6 =>
                split
                next ref heq7 =>
                  exact ⟨rfl, updatePerson_GenPres st.personMap ref.1 _ (fun p => rfl)⟩
                next heq7 => exact ⟨rfl, fun k p hk => ⟨p, hk, rfl⟩⟩
              next heq6 =>
                split
                next v heq7 =>
                  split
                  next ref heq8 =>
                    exact ⟨rfl, updatePerson_GenPres st.personMap ref.1 _ (fun p => rfl)⟩
                  next heq8 => exact ⟨rfl, fun k p hk => ⟨p, hk, rfl⟩⟩
                next heq7 => exact ⟨rfl, fun k p hk => ⟨p, hk, rfl⟩⟩

/-- Generation preservation transports the absence of generation-1 persons. -/
theorem NoGen1_of_GenPres (m m' : List (String × Person)) (hg : GenPres m m')
    (h : NoGen1 m) : NoGen1 m' := by
  intro k p hk
  obtain ⟨q, hq, hgen⟩ := hg k p hk
  intro hc
  rw [hgen] at hc
  exact h k q hq hc

/-- Once set, the root identity survives any later line. -/
theorem processLine_keeps_root (st : ParseState) (raw : List Char)
    (h : ¬(st.rootId = "")) : (processLine st raw).rootId = st.rootId := by
  unfold processLine
  dsimp only
  by_cases hskip : ((normalizeLine raw).isEmpty ||
      hasSubstr descendantChartTag (normalizeLine raw)) = true
  · rw [if_pos hskip]
  · rw [if_neg hskip]
    cases hmg : matchGeneration (normalizeLine raw) with
    | some t =>
      obtain ⟨g, idx, rest⟩ := t
      show (processPersonRecord st g idx rest).rootId = st.rootId
      cases hp : probeAux st.personMap (canonicalId st g idx) ⟨extractNameL rest⟩
          (st.personMap.length + 1) 1 with
      | none => rw [processPersonRecord_none_eq st g idx rest hp]
      | some r =>
        obtain ⟨fid, found⟩ := r
        cases found with
        | true => rw [processPersonRecord_found_eq st g idx rest fid hp]
        | false =>
          rw [processPersonRecord_fresh_eq st g idx rest fid hp]
          show (if g = 1 ∧ st.rootId = "" then fid else st.rootId) = st.rootId
          rw [if_neg (fun hc => h hc.2)]
    | none =>
      cases hms : matchSpouse (normalizeLine raw) with
      | some rest =>
        cases hcp : st.currentPersonId with
        | some fid => exact (processSpouseLine_frame st rest).1
        | none => exact (applyMeta_frame st (normalizeLine raw)).1
      | none => exact (applyMeta_frame st (normalizeLine raw)).1

/-- A line that is not a generation-1 record leaves the root identity alone
and cannot introduce a generation-1 person. -/
theorem processLine_no_gen1 (st : ParseState) (raw : List Char)
    (h : isGen1Record raw = false) :
    (processLine st raw).rootId = st.rootId ∧
      (NoGen1 st.personMap → NoGen1 (processLine st raw).personMap) := by
  unfold isGen1Record at h
  dsimp only at h
  unfold processLine
  dsimp only
  by_cases hskip : ((normalizeLine raw).isEmpty ||
      hasSubstr descendantChartTag (normalizeLine raw)) = true
  · rw [if_pos hskip]
    exact ⟨rfl, id⟩
  · rw [if_neg hskip] at h ⊢
    cases hmg : matchGeneration (normalizeLine raw) with
    | some t =>
      obtain ⟨g, idx, rest⟩ := t
      rw [hmg] at h
      have hg : ¬(g = 1) := of_decide_eq_false h
      show (processPersonRecord st g idx rest).rootId = st.rootId ∧
        (NoGen1 st.personMap → NoGen1 (processPersonRecord st g idx rest).personMap)
      cases hp : probeAux st.personMap (canonicalId st g idx) ⟨extractNameL rest⟩
          (st.personMap.length + 1) 1 with
      | none =>
        rw [processPersonRecord_none_eq st g idx rest hp]
        exact ⟨rfl, id⟩
      | some r =>
        obtain ⟨fid, found⟩ := r
        cases found with
        | true =>
          rw [processPersonRecord_found_eq st g idx rest fid hp]
          exact ⟨rfl, id⟩
        | false =>
          rw [processPersonRecord_fresh_eq st g idx rest fid hp]
          constructor
          · show (if g = 1 ∧ st.rootId = "" then fid else st.rootId) = st.rootId
            rw [if_neg (fun hc => hg hc.1)]
          · intro hng
            have hng1 : ∀ pid?, NoGen1 (setPerson st.personMap fid
                (newPersonOf fid g idx rest pid?)) := by
              intro pid? k p hk
              rw [lookupPerson_setPerson] at hk
              by_cases he : fid = k
              · rw [if_pos he, Option.some.injEq] at hk
                subst hk
                exact fun hc => hg hc
              · rw [if_neg he] at hk
                exact hng k p hk
            cases hh : (popStack st.parentStack g).head? with
            | none => exact hng1 _
            | some pr =>
              intro k p hk
              obtain ⟨q, hq, hgen⟩ := attachChild_lookup_backward _ pr.2 fid k p hk
              intro hc
              rw [hgen] at hc
              exact hng1 _ k q hq hc
    | none =>
      cases hms : matchSpouse (normalizeLine raw) with
      | some rest =>
        cases hcp : st.currentPersonId with
        | some fid =>
          exact ⟨(processSpouseLine_frame st rest).1,
            NoGen1_of_GenPres st.personMap _ (processSpouseLine_frame st rest).2⟩
        | none =>
          exact ⟨(applyMeta_frame st (normalizeLine raw)).1,
            NoGen1_of_GenPres st.personMap _ (applyMeta_frame st (normalizeLine raw)).2⟩
      | none =>
        exact ⟨(applyMeta_frame st (normalizeLine raw)).1,
          NoGen1_of_GenPres st.personMap _ (applyMeta_frame st (normalizeLine raw)).2⟩

/-- Folding over lines none of which is a generation-1 record: the root
identity is untouched and no generation-1 person appears. -/
theorem foldl_no_gen1 : ∀ (lines : List (List Char)) (st : ParseState),
    (∀ l ∈ lines, isGen1Record l = false) →
    (lines.foldl processLine st).rootId = st.rootId ∧
      (NoGen1 st.personMap → NoGen1 (lines.foldl processLine st).personMap) := by
  intro lines
  induction lines with
  | nil => intro st h; exact ⟨rfl, id⟩
  | cons l ls ih =>
    intro st h
    rw [List.foldl_cons]
    have h1 := processLine_no_gen1 st l (h l (List.mem_cons_self l ls))
    have h2 := ih (processLine st l) (fun l' hl' => h l' (List.mem_cons_of_mem l hl'))
    exact ⟨h2.1.trans h1.1, fun hng => h2.2 (h1.2 hng)⟩

/-- Folding over any lines from a state whose root is already set keeps the
root identity unchanged. -/
theorem foldl_keeps_root : ∀ (lines : List (List Char)) (st : ParseState),
    ¬(st.rootId = "") → (lines.foldl processLine st).rootId = st.rootId := by
  intro lines
  induction lines with
  | nil => intro st h; rfl
  | cons l ls ih =>
    intro st h
    rw [List.foldl_cons]
    have hr := processLine_keeps_root st l h
    have := ih (processLine st l) (by rw [hr]; exact h)
    exact this.trans hr

/-- The first generation-1 record processed from a rootless, generation-1-free
state lands in the fresh branch and installs its freshly resolved identity as
the root. -/
theorem gen1_record_sets_root (st : ParseState) (raw : List Char)
    (hInv : StateInv st) (hroot : st.rootId = "") (hng : NoGen1 st.personMap)
    (hg1 : isGen1Record raw = true) :
    ∃ fid, ¬(fid = "") ∧ (processLine st raw).currentPersonId = some fid ∧
      (processLine st raw).rootId = fid := by
  unfold isGen1Record at hg1
  dsimp only at hg1
  by_cases hskip : ((normalizeLine raw).isEmpty ||
      hasSubstr descendantChartTag (normalizeLine raw)) = true
  · rw [if_pos hskip] at hg1
    exact Bool.noConfusion hg1
  · rw [if_neg hskip] at hg1
    cases hmg : matchGeneration (normalizeLine raw) with
    | none =>
      rw [hmg] at hg1
      exact Bool.noConfusion hg1
    | some t =>
      obtain ⟨g, idx, rest⟩ := t
      rw [hmg] at hg1
      have hg : g = 1 := of_decide_eq_true hg1
      subst hg
      have hpl : processLine st raw = processPersonRecord st 1 idx rest := by
        unfold processLine
        dsimp only
        rw [if_neg hskip, hmg]
      have hidx := (matchGeneration_shape (normalizeLine raw) 1 idx rest hmg).2
      obtain ⟨r, hr1, hr2⟩ := probe_resolution_total st.personMap
        (canonicalId st 1 idx) ⟨extractNameL rest⟩
      obtain ⟨fid, found⟩ := r
      cases found with
      | true =>
        exfalso
        obtain ⟨s', q, hs, hfid_eq, hq, hn⟩ := probeAux_found st.personMap
          (canonicalId st 1 idx) ⟨extractNameL rest⟩ (st.personMap.length + 1) 1 fid hr2
        have h1 := hInv.1.1 fid q hq
        rw [hfid_eq, genOfKeyL_candId st 1 idx s' hidx] at h1
        exact hng fid q hq (Option.some.inj h1).symm
      | false =>
        obtain ⟨s', hs, hfid_eq, hfree⟩ := probeAux_fresh st.personMap
          (canonicalId st 1 idx) ⟨extractNameL rest⟩ (st.personMap.length + 1) 1 fid hr2
        have hgenkey : genOfKeyL fid.data = some 1 := by
          rw [hfid_eq]
          exact genOfKeyL_candId st 1 idx s' hidx
        refine ⟨fid, ?_, ?_, ?_⟩
        · intro he
          rw [he] at hgenkey
          exact Option.noConfusion hgenkey
        · rw [hpl, processPersonRecord_fresh_eq st 1 idx rest fid hr2]
        · rw [hpl, processPersonRecord_fresh_eq st 1 idx rest fid hr2]
          show (if 1 = 1 ∧ st.rootId = "" then fid else st.rootId) = fid
          rw [if_pos ⟨rfl, hroot⟩]

/-- Claim C2: for every input, the root identity of the parse result is the
identity assigned to the first generation-1 new-person record in line order —
that record resolves to a fresh non-empty identity which becomes both the
current focus and the root, and no later line ever reassigns it; if no
generation-1 record occurs, no root is set (it stays the empty marker). -/
theorem root_first_gen1 (text : String) :
    ((∀ raw ∈ splitLines text.data, isGen1Record raw = false) →
      (parseFamilyTree text).rootId = "") ∧
    ∀ pre raw post, splitLines text.data = pre ++ raw :: post →
      (∀ l ∈ pre, isGen1Record l = false) → isGen1Record raw = true →
      ∃ fid, ¬(fid = "") ∧
        (processLine (pre.foldl processLine initState) raw).currentPersonId = some fid ∧
        (processLine (pre.foldl processLine initState) raw).rootId = fid ∧
        (parseFamilyTree text).rootId = fid := by
  have hb : (parseFamilyTree text).rootId =
      ((splitLines text.data).foldl processLine initState).rootId := rfl
  constructor
  · intro hall
    rw [hb]
    exact (foldl_no_gen1 (splitLines text.data) initState hall).1
  · intro pre raw post hsplit hpre hraw
    have hInvPre : StateInv (pre.foldl processLine initState) :=
      foldl_StateInv pre initState StateInv_init
    have hfr := foldl_no_gen1 pre initState hpre
    have hrootpre : (pre.foldl processLine initState).rootId = "" := hfr.1
    have hngpre : NoGen1 (pre.foldl processLine initState).personMap :=
      hfr.2 (fun k p hk => absurd hk (by intro hc; exact Option.noConfusion hc))
    obtain ⟨fid, hne, hcur, hroot1⟩ := gen1_record_sets_root
      (pre.foldl processLine initState) raw hInvPre hrootpre hngpre hraw
    refine ⟨fid, hne, hcur, hroot1, ?_⟩
    rw [hb, hsplit, List.foldl_append, List.foldl_cons]
    have hset : ¬((processLine (pre.foldl processLine initState) raw).rootId = "") := by
      rw [hroot1]
      exact hne
    rw [foldl_keeps_root post (processLine (pre.foldl processLine initState) raw) hset]
    exact hroot1

/-- Witness for the C2 theorem at a concrete input: the second generation-1
record does not displace the root installed by the first. -/
theorem root_first_gen1_witness :
    ∃ fid, ¬(fid = "") ∧
      (processLine (List.foldl processLine initState []) (("(1) 1 Ann").data)).currentPersonId = some fid ∧
      (processLine (List.foldl processLine initState []) (("(1) 1 Ann").data)).rootId = fid ∧
      (parseFamilyTree ("(1) 1 Ann\n(1) 2 Zoe")).rootId = fid :=
  (root_first_gen1 ("(1) 1 Ann\n(1) 2 Zoe")).2 [] (("(1) 1 Ann").data)
    [(("(1) 2 Zoe").data)] (by decide) (by decide) (by decide)

end FamilyTree
